import Mathlib

/-!
Verification of the description annotator in
`src/materialious/src/lib/misc.ts` (`phaseDescription`, `convertToSeconds`,
`decodeHtmlCharCodes`) against its natural-language specification.

Strings are modelled as `List Char` (one entry per code point; the claims do
not depend on UTF-16 surrogate behaviour).  JavaScript numbers produced by
`parseInt`-based arithmetic are modelled as `JsNum` (`NaN`, the two
infinities, or a finite integral IEEE double given by its exact integer
value): every value reachable here is integral, and each operation computes
the exact result and rounds it to the nearest double (ties to even),
overflowing to an infinity at 2^1024 — so `parseInt` of a 309-plus-digit
run correctly yields `Infinity`.  Each regular expression of the source is
embedded as a dedicated matching function with JavaScript backtracking
semantics (leftmost match, greedy/lazy quantifiers as written in the
pattern).
-/

set_option maxRecDepth 4000

abbrev Str : Type := List Char

/-- The character class of JavaScript `\s` (WhiteSpace plus LineTerminator). -/
def jsWs (c : Char) : Bool :=
  decide (c = ' ' ∨ c = '\t' ∨ c = '\n' ∨ c = '\r' ∨ c = '\x0B' ∨ c = '\x0C' ∨
    c = ' ' ∨ c = ' ' ∨ (' ' ≤ c ∧ c ≤ ' ') ∨
    c = ' ' ∨ c = ' ' ∨ c = ' ' ∨ c = ' ' ∨
    c = '　' ∨ c = '﻿')

/-- The character class of `.` in a JavaScript regex without the `s` flag:
any character except a line terminator. -/
def dotM (c : Char) : Bool :=
  decide (¬ (c = '\n' ∨ c = '\r' ∨ c = ' ' ∨ c = ' '))

/-- JavaScript `String.prototype.split(sep)` for a single-character
separator: always returns a non-empty list, `"" → [""]`. -/
def splitOnC (sep : Char) : Str → List Str
  | [] => [[]]
  | c :: r =>
    if c = sep then [] :: splitOnC sep r
    else
      match splitOnC sep r with
      | [] => [[c]]
      | h :: t => (c :: h) :: t

/-- JavaScript `Array.prototype.join(sep)` for a single-character separator. -/
def joinC (sep : Char) : List Str → Str
  | [] => []
  | [l] => l
  | l :: h :: t => l ++ sep :: joinC sep (h :: t)

/-- Split a list at the first character satisfying `p`, returning the part
before it and the part after it (the matching character is dropped). -/
def splitAtFirst (p : Char → Bool) : Str → Option (Str × Str)
  | [] => none
  | c :: r =>
    if p c then some ([], r)
    else
      match splitAtFirst p r with
      | some (a, b) => some (c :: a, b)
      | none => none

/-- First `some` in a list of options. -/
def firstSome {α : Type} : List (Option α) → Option α
  | [] => none
  | some a :: _ => some a
  | none :: rest => firstSome rest

/-- Predicate: `p` occurs as a contiguous substring of `s`. -/
def occursIn (p s : Str) : Prop := ∃ a b, s = a ++ p ++ b

/- ### Literal fragments of the regexes in `phaseDescription` -/

def anchorLit : Str := "<a href=\"".toList

def onclickLit : Str := " data-onclick=\"jump_to_time\" data-jump-time=\"".toList

def quoteGtLit : Str := "\">".toList

def closeALit : Str := "</a>".toList

def attrsTail : Str :=
  "\" target=\"_blank\" rel=\"noopener noreferrer\" class=\"link\"".toList

def closeSpanLit : Str := "</span>".toList

def spanOpenLit : Str := "<span".toList

/- ### `urlRegex = /<a href="([^"]+)"/` -/

/-- Match `urlRegex` anchored at the start of `l`: the literal `<a href="`,
then a non-empty run of non-quote characters (group 1), then `"`.
Returns (group 1, remainder after the match). -/
def urlTryAt (l : Str) : Option (Str × Str) :=
  if anchorLit.isPrefixOf l then
    match splitAtFirst (fun x => x == '"') (l.drop anchorLit.length) with
    | some (cap, rest) => if cap = [] then none else some (cap, rest)
    | none => none
  else none

/-- Run `urlRegex.exec(l)`: leftmost match, returning
(text before the match, group 1, text after the match). -/
def urlExec : Str → Option (Str × Str × Str)
  | [] => none
  | c :: r =>
    match urlTryAt (c :: r) with
    | some (cap, rest) => some ([], cap, rest)
    | none =>
      match urlExec r with
      | some (pre, cap, rest) => some (c :: pre, cap, rest)
      | none => none

/-- Compute `l.replace(urlRegex, '<a href="$1" target="_blank" rel="noopener
noreferrer" class="link"')`: rewrite the first match, keep `l` otherwise. -/
def urlRewrite (l : Str) : Str :=
  match urlExec l with
  | some (pre, cap, rest) => pre ++ anchorLit ++ cap ++ attrsTail ++ rest
  | none => l

/- ### `timestampRegexInvidious =
  /<a href="([^"]+)" data-onclick="jump_to_time" data-jump-time="(\d+)">(\d+:\d+(?::\d+)?)<\/a>\s*(.+)/` -/

/-- Match `(\d+:\d+(?::\d+)?)<\/a>` at the start of `r`: maximal digit runs
around `:`, an optional third component, then the literal `</a>`.
Returns (group 3, remainder after `</a>`). -/
def clockParse (r : Str) : Option (Str × Str) :=
  let d1 := r.takeWhile Char.isDigit
  if d1 = [] then none
  else
    match r.drop d1.length with
    | [] => none
    | c1 :: r2 =>
      if c1 = ':' then
        let d2 := r2.takeWhile Char.isDigit
        if d2 = [] then none
        else
          match r2.drop d2.length with
          | [] => none
          | c2 :: r4 =>
            if c2 = ':' then
              let d3 := r4.takeWhile Char.isDigit
              if d3 = [] then none
              else
                let r5 := r4.drop d3.length
                if closeALit.isPrefixOf r5 then
                  some (d1 ++ ':' :: (d2 ++ ':' :: d3), r5.drop closeALit.length)
                else none
            else
              if closeALit.isPrefixOf (c2 :: r4) then
                some (d1 ++ ':' :: d2, (c2 :: r4).drop closeALit.length)
              else none
      else none

/-- Match the trailing `\s*(.+)` of the Invidious pattern against `t`
(backtracking: the greedy `\s*` yields characters back to `.+` when nothing
follows the whitespace run).  Returns group 4. -/
def tailTitle (t : Str) : Option Str :=
  let w := t.takeWhile jsWs
  match t.drop w.length with
  | [] =>
    match w.reverse.dropWhile (fun c => not (dotM c)) with
    | [] => none
    | c :: _ => some [c]
  | c :: r2 => some ((c :: r2).takeWhile dotM)

/-- Match `timestampRegexInvidious` anchored at the start of `l`.
Returns groups (1 href, 2 time, 3 clock, 4 title). -/
def invTryAt (l : Str) : Option (Str × Str × Str × Str) :=
  if anchorLit.isPrefixOf l then
    match splitAtFirst (fun x => x == '"') (l.drop anchorLit.length) with
    | some (href, r1) =>
      if href = [] then none
      else if onclickLit.isPrefixOf r1 then
        let r2 := r1.drop onclickLit.length
        let ds := r2.takeWhile Char.isDigit
        if ds = [] then none
        else
          let r3 := r2.drop ds.length
          if quoteGtLit.isPrefixOf r3 then
            match clockParse (r3.drop quoteGtLit.length) with
            | some (clock, r5) =>
              match tailTitle r5 with
              | some title => some (href, ds, clock, title)
              | none => none
            | none => none
          else none
      else none
    | none => none
  else none

/-- Run `timestampRegexInvidious.exec(l)`: leftmost match. -/
def invExec : Str → Option (Str × Str × Str × Str)
  | [] => none
  | c :: r =>
    match invTryAt (c :: r) with
    | some g => some g
    | none => invExec r

/- ### `timestampRegexYtJs =
  /&(?:\S*?&)?t=(\d+)\s*s.*?<span[^>]*>([^<]*)<\/span>.*?>(.*?)<\/span>/` -/

/-- Trailing `(.*?)<\/span>`: lazily accumulate group 3 until the nearest
occurrence of `</span>` reachable over `.`-matchable characters. -/
def ytStep7 : Str → Option Str
  | [] => none
  | c :: r =>
    if closeSpanLit.isPrefixOf (c :: r) then some []
    else if dotM c then
      match ytStep7 r with
      | some g => some (c :: g)
      | none => none
    else none

/-- Match `.*?>` followed by `ytStep7`: lazily seek a `>`; on failure of the rest
of the pattern, resume the search past that `>`. -/
def ytStep6 : Str → Option Str
  | [] => none
  | c :: r =>
    if c = '>' then
      match ytStep7 r with
      | some g => some g
      | none => if dotM c then ytStep6 r else none
    else if dotM c then ytStep6 r else none

/-- Match `([^<]*)<\/span>` followed by `ytStep6`.  Returns (group 2, group 3). -/
def ytStep5 (t : Str) : Option (Str × Str) :=
  let g2 := t.takeWhile (fun c => c != '<')
  let r := t.drop g2.length
  if closeSpanLit.isPrefixOf r then
    match ytStep6 (r.drop closeSpanLit.length) with
    | some g3 => some (g2, g3)
    | none => none
  else none

/-- Match `.*?<span[^>]*>` followed by `ytStep5`: lazily seek `<span`, consume
`[^>]*>`, and on failure of the rest resume the search one character on. -/
def ytStep4 : Str → Option (Str × Str)
  | [] => none
  | c :: r =>
    let attempt : Option (Str × Str) :=
      if spanOpenLit.isPrefixOf (c :: r) then
        let a := (c :: r).drop spanOpenLit.length
        let g := a.takeWhile (fun x => x != '>')
        let rest := a.drop g.length
        if rest = [] then none else ytStep5 (rest.drop 1)
      else none
    match attempt with
    | some res => some res
    | none => if dotM c then ytStep4 r else none

/-- Match `t=(\d+)\s*s` followed by `ytStep4`.  Returns (group 1, group 2, group 3). -/
def ytStep3 (t : Str) : Option (Str × Str × Str) :=
  match t with
  | c1 :: c2 :: r =>
    if c1 = 't' ∧ c2 = '=' then
      let ds := r.takeWhile Char.isDigit
      if ds = [] then none
      else
        match (r.drop ds.length).dropWhile jsWs with
        | [] => none
        | s0 :: r3 =>
          if s0 = 's' then
            match ytStep4 r3 with
            | some (g2, g3) => some (ds, g2, g3)
            | none => none
          else none
    else none
  | _ => none

/-- Backtracking candidates of the optional group `(?:\S*?&)?` after the
leading `&`: for each `&` reachable over non-whitespace characters (lazily,
nearest first) the continuation resumes after it; the final fallback (the
group matching nothing) is handled by the caller. -/
def ytAmpCands : Str → List Str
  | [] => []
  | c :: r =>
    (if c = '&' then [r] else []) ++ (if jsWs c then [] else ytAmpCands r)

/-- Match `timestampRegexYtJs` anchored at the start of the string. -/
def ytTryAt : Str → Option (Str × Str × Str)
  | [] => none
  | c :: r =>
    if c = '&' then
      match firstSome ((ytAmpCands r).map ytStep3) with
      | some g => some g
      | none => ytStep3 r
    else none

/-- Run `timestampRegexYtJs.exec(s)`: leftmost match. -/
def ytjsExec : Str → Option (Str × Str × Str)
  | [] => none
  | c :: r =>
    match ytTryAt (c :: r) with
    | some g => some g
    | none => ytjsExec r

/- ### Title cleaning and entity decoding -/

/-- Compute `title.replace(/<[^>]+>/g, '')`: repeatedly delete the leftmost
`<`…`>` block with a non-empty, `>`-free interior. -/
def stripTags (s : Str) : Str :=
  match s with
  | [] => []
  | c :: r =>
    if c = '<' then
      if r.takeWhile (fun x => x != '>') ≠ [] ∧
          r.drop (r.takeWhile (fun x => x != '>')).length ≠ [] then
        stripTags ((r.drop (r.takeWhile (fun x => x != '>')).length).drop 1)
      else '<' :: stripTags r
    else c :: stripTags r
termination_by s.length
decreasing_by
  all_goals simp_wf
  all_goals omega

/-- Compute `title.replace(/\n/g, '')`. -/
def removeNl (s : Str) : Str := s.filter (fun c => c ≠ '\n')

/-- JavaScript `String.prototype.trim()`. -/
def trimStr (s : Str) : Str :=
  ((s.dropWhile jsWs).reverse.dropWhile jsWs).reverse

/-- Modelled from the spec: `decodeHtmlCharCodes` delegates to the external
`he` library (`he.decode`), whose code is not part of this repository; the
spec says only that HTML character entities (such as `&amp;`) are decoded in
timestamp titles.  We model decoding of the standard named entities
`&amp; &lt; &gt; &quot; &#39;`, leaving all other text unchanged. -/
def ampEnt : Str := "amp;".toList

def ltEnt : Str := "lt;".toList

def gtEnt : Str := "gt;".toList

def quotEnt : Str := "quot;".toList

def aposEnt : Str := "#39;".toList

def decodeHtmlCharCodes (s : Str) : Str :=
  match s with
  | [] => []
  | c :: r =>
    if c = '&' then
      if ampEnt.isPrefixOf r then '&' :: decodeHtmlCharCodes (r.drop ampEnt.length)
      else if ltEnt.isPrefixOf r then '<' :: decodeHtmlCharCodes (r.drop ltEnt.length)
      else if gtEnt.isPrefixOf r then '>' :: decodeHtmlCharCodes (r.drop gtEnt.length)
      else if quotEnt.isPrefixOf r then '"' :: decodeHtmlCharCodes (r.drop quotEnt.length)
      else if aposEnt.isPrefixOf r then
        Char.ofNat 39 :: decodeHtmlCharCodes (r.drop aposEnt.length)
      else c :: decodeHtmlCharCodes r
    else c :: decodeHtmlCharCodes r
termination_by s.length
decreasing_by
  all_goals simp_wf
  all_goals simp [ampEnt, ltEnt, gtEnt, quotEnt, aposEnt]
  all_goals omega

/- ### `convertToSeconds` and JavaScript number arithmetic -/

/-- Numeric value of a digit string. -/
def digitsToNat (ds : Str) : Nat :=
  ds.foldl (fun acc c => acc * 10 + (c.toNat - 48)) 0

def isHexDigitC (c : Char) : Bool :=
  c.isDigit || decide ('a' ≤ c ∧ c ≤ 'f') || decide ('A' ≤ c ∧ c ≤ 'F')

def hexDigitVal (c : Char) : Nat :=
  if c.isDigit then c.toNat - 48
  else if 'a' ≤ c then c.toNat - 87
  else c.toNat - 55

/-- Does the string start with a `0x`/`0X` hex marker (as recognised by
`parseInt` with no radix argument)? -/
def hexStart : Str → Bool
  | a :: b :: _ => a == '0' && (b == 'x' || b == 'X')
  | _ => false

def hexVal : Str → Option Nat
  | r =>
    let ds := r.takeWhile isHexDigitC
    if ds = [] then none else
      some (ds.foldl (fun a c => a * 16 + hexDigitVal c) 0)

/-- Leading-digits parse used by `parseInt` after sign handling;
`none` is `NaN`. -/
def parsePrefixNat (r : Str) : Option Nat :=
  if hexStart r then hexVal (r.drop 2)
  else
    let ds := r.takeWhile Char.isDigit
    if ds = [] then none else some (digitsToNat ds)

/-- JavaScript number values reachable through `parseInt`-based integer
arithmetic: `NaN`, the two infinities, or a finite value.  Every finite
value reachable here is an integral IEEE double (`parseInt` returns
integral doubles, and exact-sum/product-then-round of integral doubles is
integral), so an `Int` payload is exact; `fin` values are always produced
through `roundToDouble`, hence representable. -/
inductive JsNum where
  | nan : JsNum
  | posInf : JsNum
  | negInf : JsNum
  | fin : Int → JsNum
deriving DecidableEq, Repr

/-- Floor base-2 logarithm by structural recursion on a fuel argument,
so that it evaluates inside `decide`; `log2n n` equals `Nat.log2 n`
(`log2f_eq` below), the fuel `n` always sufficing. -/
def log2f : Nat → Nat → Nat
  | 0, _ => 0
  | fuel + 1, n => if n < 2 then 0 else log2f fuel (n / 2) + 1

/-- Floor base-2 logarithm (`Nat.log2` in an evaluation-friendly form). -/
def log2n (n : Nat) : Nat := log2f n n

/-- Round a natural number to the nearest IEEE double (round to nearest,
ties to even): exact below 2^53, otherwise round the 53-bit significand and
return `none` for overflow to infinity (when the rounded value reaches
2^1024). -/
def roundNat (v : Nat) : Option Nat :=
  if v < 2 ^ 53 then some v
  else
    let k := log2n v - 52
    let q := v / 2 ^ k
    let r := v % 2 ^ k
    let half := 2 ^ (k - 1)
    let q2 := if half < r ∨ (r = half ∧ q % 2 = 1) then q + 1 else q
    let res := q2 * 2 ^ k
    if res < 2 ^ 1024 then some res else none

/-- Convert an exact integer to the JavaScript number it denotes: the
nearest IEEE double, or an infinity on overflow. -/
def roundToDouble (v : Int) : JsNum :=
  match roundNat v.natAbs with
  | some n => JsNum.fin (if v < 0 then -(n : Int) else (n : Int))
  | none => if v < 0 then JsNum.negInf else JsNum.posInf

/-- JavaScript `parseInt(s)` (no radix): skip whitespace, optional sign,
optional `0x` prefix, parse leading digits to their mathematical value and
convert it to a JavaScript number (rounded, overflowing to an infinity for
309-plus-digit runs); `NaN` otherwise. -/
def parseIntJs (s : Str) : JsNum :=
  match s.dropWhile jsWs with
  | [] => JsNum.nan
  | c :: r =>
    if c = '-' then
      match parsePrefixNat r with
      | some n => roundToDouble (-(n : Int))
      | none => JsNum.nan
    else if c = '+' then
      match parsePrefixNat r with
      | some n => roundToDouble ((n : Int))
      | none => JsNum.nan
    else
      match parsePrefixNat (c :: r) with
      | some n => roundToDouble ((n : Int))
      | none => JsNum.nan

/-- JavaScript multiplication by an exactly representable integer
constant: `NaN` propagates, infinities keep or flip sign, finite values
are multiplied exactly and rounded (IEEE multiplication computes the exact
product and rounds it). -/
def jsMul (a : JsNum) (k : Int) : JsNum :=
  match a with
  | JsNum.nan => JsNum.nan
  | JsNum.posInf =>
    if 0 < k then JsNum.posInf else if k < 0 then JsNum.negInf else JsNum.nan
  | JsNum.negInf =>
    if 0 < k then JsNum.negInf else if k < 0 then JsNum.posInf else JsNum.nan
  | JsNum.fin v => roundToDouble (v * k)

/-- JavaScript addition: `NaN` propagates, opposite infinities give `NaN`,
an infinity absorbs, finite values are added exactly and rounded (IEEE
addition computes the exact sum and rounds it). -/
def jsAdd : JsNum → JsNum → JsNum
  | JsNum.nan, _ => JsNum.nan
  | _, JsNum.nan => JsNum.nan
  | JsNum.posInf, JsNum.negInf => JsNum.nan
  | JsNum.negInf, JsNum.posInf => JsNum.nan
  | JsNum.posInf, _ => JsNum.posInf
  | _, JsNum.posInf => JsNum.posInf
  | JsNum.negInf, _ => JsNum.negInf
  | _, JsNum.negInf => JsNum.negInf
  | JsNum.fin a, JsNum.fin b => roundToDouble (a + b)

/-- Model of `convertToSeconds` from the source: split on `:`, `parseInt` each part,
branch on the number of parts (any other count leaves `seconds = 0`). -/
def convertToSeconds (time : Str) : JsNum :=
  match (splitOnC ':' time).map parseIntJs with
  | [a, b, c] => jsAdd (jsAdd (jsMul a 3600) (jsMul b 60)) c
  | [a, b] => jsAdd (jsMul a 60) b
  | [a] => a
  | _ => JsNum.fin 0

/- ### `phaseDescription` -/

structure TimestampEntry where
  title : Str
  time : JsNum
  timePretty : Str
deriving DecidableEq, Repr

structure PhasedDescription where
  description : Str
  timestamps : List TimestampEntry
deriving DecidableEq, Repr

/-- Build the entry pushed in the timestamp branch of `phaseDescription`. -/
def mkEntry (time clock title : Str) : TimestampEntry :=
  { time := convertToSeconds time
  , title := decodeHtmlCharCodes (trimStr (removeNl (stripTags title)))
  , timePretty := clock }

/-- The timestamp match of a line: the YtJs regex run on
`line + '</span>'` when `usingYoutubeJs`, the Invidious regex on the line
otherwise, with the mode's capture-group mapping of the source
(time, clock, title). -/
def tsMatchOf (usingYoutubeJs : Bool) (line : Str) : Option (Str × Str × Str) :=
  if usingYoutubeJs then ytjsExec (line ++ closeSpanLit)
  else
    match invExec line with
    | some (_, time, clock, title) => some (time, clock, title)
    | none => none

inductive LineResult where
  | entry : TimestampEntry → LineResult
  | keep : Str → LineResult
deriving DecidableEq, Repr

/-- One iteration of the `lines.forEach` body of `phaseDescription`. -/
def processLine (m : Bool) (line : Str) : LineResult :=
  match urlExec line, tsMatchOf m line with
  | some _, none => .keep (urlRewrite line)
  | _, some g => .entry (mkEntry g.1 g.2.1 g.2.2)
  | none, none => .keep line

/-- The whole `forEach` loop: retained lines and timestamps, in input
order. -/
def phaseLoop (m : Bool) : List Str → List Str × List TimestampEntry
  | [] => ([], [])
  | l :: rest =>
    let acc := phaseLoop m rest
    match processLine m l with
    | .keep l2 => (l2 :: acc.1, acc.2)
    | .entry e => (acc.1, e :: acc.2)

/-- Model of `phaseDescription` from the source. -/
def phaseDescription (content : Str) (usingYoutubeJs : Bool) : PhasedDescription :=
  let res := phaseLoop usingYoutubeJs (splitOnC '\n' content)
  { description := joinC '\n' res.1, timestamps := res.2 }

/-- Declarative form of the per-line retention policy, following the spec:
a timestamp-matched line is dropped, a URL-matched line is kept rewritten,
any other line is kept unchanged. -/
def keepOf (m : Bool) (line : Str) : Option Str :=
  match tsMatchOf m line with
  | some _ => none
  | none => if (urlExec line).isSome then some (urlRewrite line) else some line

/-- Declarative form of the per-line timestamp extraction. -/
def entryOf (m : Bool) (line : Str) : Option TimestampEntry :=
  match tsMatchOf m line with
  | some g => some (mkEntry g.1 g.2.1 g.2.2)
  | none => none

/- ### Concrete inputs used in counterexamples and witnesses -/

def c2cex : Str := "<a href=\"u\"".toList

def c3cex : Str := "&t=70s<span>1:10</span>x>y".toList

def c6cex : Str :=
  "<a href=\"/w\" data-onclick=\"jump_to_time\" data-jump-time=\"5\">0:05</a> I".toList

def c5line : Str := "<a href=\"http://x/y\">link</a>".toList

def c8line : Str :=
  "<a href=\"/w\" data-onclick=\"jump_to_time\" data-jump-time=\"5\">0:05</a> A &amp; B".toList

def helloStr : Str := "hello world".toList

/-- The digit string `1` followed by 309 zeros; its value 10^309 exceeds
the largest finite IEEE double (about 1.8·10^308), so `parseInt` on it
returns `Infinity`. -/
def bigDigits : Str := '1' :: List.replicate 309 '0'

/-- Legacy-format timestamp line whose `data-jump-time` capture is
`bigDigits`. -/
def c10cex : Str :=
  "<a href=\"u\" data-onclick=\"jump_to_time\" data-jump-time=\"".toList ++
    bigDigits ++ "\">0:05</a> T".toList

def targetLit : Str := "target=\"_blank\"".toList

def relLit : Str := "rel=\"noopener noreferrer\"".toList

def classLit : Str := "class=\"link\"".toList

def colon1530 : Str := "1:05:30".toList

def colon230 : Str := "2:30".toList

def lit45 : Str := "45".toList

/-- Predicate: `s` contains no substring matched by `/<[^>]+>/`: no `<`, followed by a
non-empty run of non-`>` characters, followed by `>`. -/
def TagFree (s : Str) : Prop :=
  ¬ ∃ a m b, m ≠ [] ∧ (∀ c ∈ m, c ≠ '>') ∧ s = a ++ '<' :: (m ++ '>' :: b)

/-- Characters that decoding a supported entity can introduce. -/
def decodedChars : Str := ['&', '<', '>', '\"', Char.ofNat 39]

/- ### Lemmas: splitting and joining on a separator -/

lemma splitOnC_ne_nil (sep : Char) (s : Str) : splitOnC sep s ≠ [] := by
  induction s with
  | nil => simp [splitOnC]
  | cons c r ih =>
    by_cases hc : c = sep
    · simp [splitOnC, hc]
    · simp only [splitOnC, if_neg hc]
      cases h : splitOnC sep r with
      | nil => simp
      | cons hd tl => simp

lemma joinC_splitOnC (sep : Char) (s : Str) : joinC sep (splitOnC sep s) = s := by
  induction s with
  | nil => rfl
  | cons c r ih =>
    by_cases hc : c = sep
    · subst hc
      simp only [splitOnC, if_pos rfl]
      cases h : splitOnC c r with
      | nil => exact absurd h (splitOnC_ne_nil c r)
      | cons hd tl =>
        rw [h] at ih
        simpa [joinC] using ih
    · simp only [splitOnC, if_neg hc]
      cases h : splitOnC sep r with
      | nil => exact absurd h (splitOnC_ne_nil sep r)
      | cons hd tl =>
        rw [h] at ih
        cases tl with
        | nil => simpa [joinC] using ih
        | cons h2 t2 => simpa [joinC] using ih

lemma mem_splitOnC_not_sep {sep : Char} {s l : Str} (h : l ∈ splitOnC sep s) :
    sep ∉ l := by
  induction s generalizing l with
  | nil =>
    simp [splitOnC] at h
    subst h
    simp
  | cons c r ih =>
    by_cases hc : c = sep
    · subst hc
      simp only [splitOnC, if_pos rfl] at h
      rcases List.mem_cons.mp h with h1 | h2
      · subst h1; simp
      · exact ih h2
    · simp only [splitOnC, if_neg hc] at h
      cases hs : splitOnC sep r with
      | nil => exact absurd hs (splitOnC_ne_nil sep r)
      | cons hd tl =>
        rw [hs] at h
        rcases List.mem_cons.mp h with h1 | h2
        · subst h1
          intro hmem
          rcases List.mem_cons.mp hmem with h3 | h4
          · exact hc h3.symm
          · exact ih (by rw [hs]; exact List.mem_cons_self hd tl) h4
        · exact ih (by rw [hs]; exact List.mem_cons_of_mem hd h2)

lemma splitOnC_head_append (sep : Char) (s : Str) :
    ∀ hd tl, splitOnC sep s = hd :: tl → ∃ rest, s = hd ++ rest := by
  induction s with
  | nil =>
    intro hd tl h
    simp [splitOnC] at h
    exact ⟨[], by simp [← h.1]⟩
  | cons c r ih =>
    intro hd tl h
    by_cases hc : c = sep
    · subst hc
      simp only [splitOnC, if_pos rfl] at h
      have h1 : hd = [] := (List.cons.injEq _ _ _ _).mp h |>.1.symm
      exact ⟨c :: r, by simp [h1]⟩
    · simp only [splitOnC, if_neg hc] at h
      cases hs : splitOnC sep r with
      | nil => exact absurd hs (splitOnC_ne_nil sep r)
      | cons h2 t2 =>
        rw [hs] at h
        have h1 := (List.cons.injEq _ _ _ _).mp h
        obtain ⟨rest, hr⟩ := ih h2 t2 hs
        exact ⟨rest, by rw [← h1.1]; simp [hr]⟩

lemma mem_splitOnC_decomp {sep : Char} {s l : Str} (h : l ∈ splitOnC sep s) :
    ∃ a b, s = a ++ l ++ b := by
  induction s generalizing l with
  | nil =>
    simp [splitOnC] at h
    subst h
    exact ⟨[], [], rfl⟩
  | cons c r ih =>
    by_cases hc : c = sep
    · simp only [splitOnC, if_pos hc] at h
      rcases List.mem_cons.mp h with h1 | h2
      · subst h1; exact ⟨[], c :: r, rfl⟩
      · obtain ⟨a, b, hab⟩ := ih h2
        exact ⟨c :: a, b, by simp [hab]⟩
    · simp only [splitOnC, if_neg hc] at h
      cases hs : splitOnC sep r with
      | nil => exact absurd hs (splitOnC_ne_nil sep r)
      | cons h2 t2 =>
        rw [hs] at h
        rcases List.mem_cons.mp h with h1 | hmem
        · subst h1
          obtain ⟨rest, hr⟩ := splitOnC_head_append sep r h2 t2 hs
          exact ⟨[], rest, by simp [hr]⟩
        · obtain ⟨a, b, hab⟩ := ih (by rw [hs]; exact List.mem_cons_of_mem h2 hmem)
          exact ⟨c :: a, b, by simp [hab]⟩

lemma splitOnC_of_not_mem {sep : Char} {l : Str} (h : sep ∉ l) :
    splitOnC sep l = [l] := by
  induction l with
  | nil => rfl
  | cons c r ih =>
    have hc : ¬ c = sep := by
      intro e
      exact h (by simp [e])
    simp only [splitOnC, if_neg hc]
    rw [ih (fun hm => h (List.mem_cons_of_mem c hm))]

lemma splitOnC_append_sep {sep : Char} {l rest : Str} (h : sep ∉ l) :
    splitOnC sep (l ++ sep :: rest) = l :: splitOnC sep rest := by
  induction l with
  | nil => simp [splitOnC]
  | cons c r ih =>
    have hc : ¬ c = sep := by
      intro e
      exact h (by simp [e])
    simp only [List.cons_append, splitOnC, if_neg hc, List.append_eq]
    rw [ih (fun hm => h (List.mem_cons_of_mem c hm))]

lemma splitOnC_joinC {sep : Char} : ∀ {ls : List Str}, ls ≠ [] →
    (∀ l ∈ ls, sep ∉ l) → splitOnC sep (joinC sep ls) = ls
  | [], h, _ => absurd rfl h
  | [l], _, hl => by
      have : joinC sep [l] = l := rfl
      rw [this, splitOnC_of_not_mem (hl l (by simp))]
  | l :: h2 :: t2, _, hl => by
      have : joinC sep (l :: h2 :: t2) = l ++ sep :: joinC sep (h2 :: t2) := rfl
      rw [this, splitOnC_append_sep (hl l (by simp))]
      rw [splitOnC_joinC (by simp) (fun x hx => hl x (List.mem_cons_of_mem l hx))]

/- ### Lemmas: the forEach loop as filterMap -/

lemma entryOf_eq_some {m : Bool} {l : Str} {g : Str × Str × Str}
    (h : tsMatchOf m l = some g) :
    entryOf m l = some (mkEntry g.1 g.2.1 g.2.2) := by
  unfold entryOf
  rw [h]

lemma entryOf_eq_none {m : Bool} {l : Str} (h : tsMatchOf m l = none) :
    entryOf m l = none := by
  unfold entryOf
  rw [h]

lemma keepOf_eq_ts {m : Bool} {l : Str} {g : Str × Str × Str}
    (h : tsMatchOf m l = some g) : keepOf m l = none := by
  unfold keepOf
  rw [h]

lemma keepOf_eq_url {m : Bool} {l : Str} (h1 : tsMatchOf m l = none)
    (h2 : (urlExec l).isSome) : keepOf m l = some (urlRewrite l) := by
  unfold keepOf
  rw [h1]
  simp [h2]

lemma keepOf_eq_plain {m : Bool} {l : Str} (h1 : tsMatchOf m l = none)
    (h2 : urlExec l = none) : keepOf m l = some l := by
  unfold keepOf
  rw [h1]
  simp [h2]

lemma phaseLoop_eq (m : Bool) (ls : List Str) :
    phaseLoop m ls = (ls.filterMap (keepOf m), ls.filterMap (entryOf m)) := by
  induction ls with
  | nil => rfl
  | cons l rest ih =>
    simp only [phaseLoop, ih, List.filterMap_cons]
    unfold processLine keepOf entryOf
    cases hts : tsMatchOf m l with
    | some g =>
      cases hurl : urlExec l with
      | some u => simp [hts, hurl]
      | none => simp [hts, hurl]
    | none =>
      cases hurl : urlExec l with
      | some u => simp [hts, hurl]
      | none => simp [hts, hurl]

lemma phaseDescription_eq (content : Str) (m : Bool) :
    phaseDescription content m =
      { description := joinC '\n' ((splitOnC '\n' content).filterMap (keepOf m))
      , timestamps := (splitOnC '\n' content).filterMap (entryOf m) } := by
  unfold phaseDescription
  rw [phaseLoop_eq]

lemma entry_count (m : Bool) (ls : List Str) :
    (ls.filterMap (entryOf m)).length =
      (ls.filter (fun l => (tsMatchOf m l).isSome)).length := by
  induction ls with
  | nil => rfl
  | cons l rest ih =>
    simp only [List.filterMap_cons, List.filter_cons]
    cases hts : tsMatchOf m l with
    | some g => simp [entryOf_eq_some hts, hts, ih]
    | none => simp [entryOf_eq_none hts, hts, ih]

lemma keep_entry_count (m : Bool) (ls : List Str) :
    ls.length = (ls.filterMap (keepOf m)).length + (ls.filterMap (entryOf m)).length := by
  induction ls with
  | nil => rfl
  | cons l rest ih =>
    simp only [List.filterMap_cons, List.length_cons]
    cases hts : tsMatchOf m l with
    | some g =>
      simp only [keepOf_eq_ts hts, entryOf_eq_some hts]
      simp [ih]
      omega
    | none =>
      cases hurl : urlExec l with
      | some u =>
        simp only [keepOf_eq_url hts (by simp [hurl]), entryOf_eq_none hts]
        simp [ih]
        omega
      | none =>
        simp only [keepOf_eq_plain hts hurl, entryOf_eq_none hts]
        simp [ih]
        omega

/- ### Lemmas: decomposition of matcher successes -/

lemma splitAtFirst_some {p : Char → Bool} : ∀ {s a b : Str},
    splitAtFirst p s = some (a, b) →
    ∃ ch, p ch = true ∧ s = a ++ ch :: b ∧ ∀ x ∈ a, p x = false := by
  intro s
  induction s with
  | nil => intro a b h; simp [splitAtFirst] at h
  | cons c r ih =>
    intro a b h
    by_cases hc : p c = true
    · simp only [splitAtFirst, if_pos hc, Option.some.injEq, Prod.mk.injEq] at h
      obtain ⟨h1, h2⟩ := h
      subst h1
      subst h2
      exact ⟨c, hc, by simp, by simp⟩
    · simp only [splitAtFirst, if_neg hc] at h
      cases hs : splitAtFirst p r with
      | none => rw [hs] at h; simp at h
      | some ab =>
        obtain ⟨a2, b2⟩ := ab
        rw [hs] at h
        simp at h
        obtain ⟨h1, h2⟩ := h
        obtain ⟨ch, hch, heq, hall⟩ := ih hs
        refine ⟨ch, hch, by simp [← h1, ← h2, heq], ?_⟩
        intro x hx
        rw [← h1] at hx
        rcases List.mem_cons.mp hx with h3 | h4
        · subst h3; simpa using hc
        · exact hall x h4

lemma prefix_drop_eq {p l : Str} (h : p.isPrefixOf l = true) :
    l = p ++ l.drop p.length := by
  have hp : p <+: l := List.isPrefixOf_iff_prefix.mp h
  obtain ⟨t, ht⟩ := hp
  subst ht
  rw [List.drop_left]

lemma urlTryAt_some {l cap rest : Str} (h : urlTryAt l = some (cap, rest)) :
    l = anchorLit ++ cap ++ '"' :: rest ∧ cap ≠ [] ∧ ∀ x ∈ cap, x ≠ '"' := by
  unfold urlTryAt at h
  by_cases hp : anchorLit.isPrefixOf l
  case neg => simp [hp] at h
  case pos =>
    rw [if_pos hp] at h
    cases hs : splitAtFirst (fun x => x == '"') (l.drop anchorLit.length) with
    | none => rw [hs] at h; simp at h
    | some ab =>
      obtain ⟨a, b⟩ := ab
      rw [hs] at h
      by_cases hnil : a = []
      · simp [hnil] at h
      · simp [hnil] at h
        obtain ⟨h1, h2⟩ := h
        obtain ⟨ch, hch, heq, hall⟩ := splitAtFirst_some hs
        have hch2 : ch = '"' := by simpa using hch
        subst h1 h2
        refine ⟨?_, hnil, ?_⟩
        · conv_lhs => rw [prefix_drop_eq hp]
          rw [heq, hch2]
          simp
        · intro x hx
          have := hall x hx
          simpa using this

lemma urlExec_some : ∀ {l pre cap rest : Str},
    urlExec l = some (pre, cap, rest) →
    l = pre ++ anchorLit ++ cap ++ '"' :: rest ∧ cap ≠ [] ∧ ∀ x ∈ cap, x ≠ '"' := by
  intro l
  induction l with
  | nil => intro pre cap rest h; simp [urlExec] at h
  | cons c r ih =>
    intro pre cap rest h
    unfold urlExec at h
    cases ht : urlTryAt (c :: r) with
    | some cr =>
      obtain ⟨cap2, rest2⟩ := cr
      rw [ht] at h
      simp at h
      obtain ⟨h1, h2, h3⟩ := h
      obtain ⟨he, hne, hq⟩ := urlTryAt_some ht
      subst h1 h2 h3
      exact ⟨by simpa using he, hne, hq⟩
    | none =>
      rw [ht] at h
      cases hr : urlExec r with
      | none => rw [hr] at h; simp at h
      | some prs =>
        obtain ⟨pre2, cap2, rest2⟩ := prs
        rw [hr] at h
        simp at h
        obtain ⟨h1, h2, h3⟩ := h
        obtain ⟨he, hne, hq⟩ := ih hr
        subst h2 h3
        rw [← h1]
        exact ⟨by simp [he], hne, hq⟩

lemma urlExec_none_tryAt : ∀ {l : Str}, urlExec l = none →
    ∀ t, t <:+ l → urlTryAt t = none := by
  intro l
  induction l with
  | nil =>
    intro _ t ht
    have h0 : t = [] := List.suffix_nil.mp ht
    subst h0
    rfl
  | cons c r ih =>
    intro h t ht
    unfold urlExec at h
    cases hta : urlTryAt (c :: r) with
    | some g =>
      obtain ⟨a, b⟩ := g
      rw [hta] at h
      simp at h
    | none =>
      rw [hta] at h
      cases hr : urlExec r with
      | some g =>
        obtain ⟨a, b, c2⟩ := g
        rw [hr] at h
        simp at h
      | none =>
        rcases List.suffix_cons_iff.mp ht with h1 | h2
        · subst h1; exact hta
        · exact ih hr t h2

lemma invTryAt_some_url {l : Str} {g : Str × Str × Str × Str}
    (h : invTryAt l = some g) : urlTryAt l ≠ none := by
  unfold invTryAt at h
  unfold urlTryAt
  by_cases hp : anchorLit.isPrefixOf l
  · rw [if_pos hp] at h ⊢
    cases hs : splitAtFirst (fun x => x == '"') (l.drop anchorLit.length) with
    | none => rw [hs] at h; simp at h
    | some ab =>
      obtain ⟨a, b⟩ := ab
      simp only [hs] at h ⊢
      by_cases hnil : a = []
      · rw [if_pos hnil] at h; simp at h
      · simp [hnil]
  · rw [if_neg hp] at h; simp at h

lemma invExec_suffix : ∀ {l : Str} {g : Str × Str × Str × Str},
    invExec l = some g → ∃ t, t <:+ l ∧ invTryAt t = some g := by
  intro l
  induction l with
  | nil => intro g h; simp [invExec] at h
  | cons c r ih =>
    intro g h
    unfold invExec at h
    cases hta : invTryAt (c :: r) with
    | some g2 =>
      rw [hta] at h
      simp at h
      subst h
      exact ⟨c :: r, List.suffix_refl _, hta⟩
    | none =>
      rw [hta] at h
      obtain ⟨t, hts, htry⟩ := ih h
      exact ⟨t, hts.trans (List.suffix_cons c r), htry⟩

lemma url_none_inv_none {l : Str} (h : urlExec l = none) : invExec l = none := by
  cases hi : invExec l with
  | none => rfl
  | some g =>
    obtain ⟨t, hts, hinv⟩ := invExec_suffix hi
    exact absurd (urlExec_none_tryAt h t hts) (invTryAt_some_url hinv)

/- ### Lemmas: occurrence of literal fragments -/

lemma occursIn_of_suffix {p t s : Str} (hs : t <:+ s) (h : occursIn p t) :
    occursIn p s := by
  obtain ⟨u, hu⟩ := hs
  obtain ⟨a, b, hab⟩ := h
  exact ⟨u ++ a, b, by rw [← hu, hab]; simp⟩

lemma occursIn_within {p u s a b : Str} (hs : s = a ++ u ++ b)
    (h : occursIn p u) : occursIn p s := by
  obtain ⟨x, y, hxy⟩ := h
  exact ⟨a ++ x, y ++ b, by rw [hs, hxy]; simp⟩

lemma urlExec_some_occurs {l : Str} {g : Str × Str × Str}
    (h : urlExec l = some g) : occursIn anchorLit l := by
  obtain ⟨pre, cap, rest⟩ := g
  obtain ⟨he, _, _⟩ := urlExec_some h
  exact ⟨pre, cap ++ '"' :: rest, by rw [he]; simp⟩

lemma invTryAt_anchored {l : Str} {g : Str × Str × Str × Str}
    (h : invTryAt l = some g) : anchorLit.isPrefixOf l = true := by
  unfold invTryAt at h
  by_cases hp : anchorLit.isPrefixOf l
  · exact hp
  · rw [if_neg hp] at h; simp at h

lemma invExec_some_occurs {l : Str} {g : Str × Str × Str × Str}
    (h : invExec l = some g) : occursIn anchorLit l := by
  obtain ⟨t, hts, htry⟩ := invExec_suffix h
  have hp := invTryAt_anchored htry
  refine occursIn_of_suffix hts ⟨[], t.drop anchorLit.length, ?_⟩
  conv_lhs => rw [prefix_drop_eq hp]
  simp

lemma ytStep4_occurs : ∀ {t : Str} {g : Str × Str},
    ytStep4 t = some g → occursIn spanOpenLit t := by
  intro t
  induction t with
  | nil => intro g h; simp [ytStep4] at h
  | cons c r ih =>
    intro g h
    by_cases hp : spanOpenLit.isPrefixOf (c :: r)
    · refine ⟨[], (c :: r).drop spanOpenLit.length, ?_⟩
      conv_lhs => rw [prefix_drop_eq hp]
      simp
    · simp only [ytStep4, if_neg hp] at h
      by_cases hd : dotM c
      · rw [if_pos hd] at h
        exact occursIn_of_suffix (List.suffix_cons c r) (ih h)
      · rw [if_neg hd] at h
        simp at h

lemma ytStep3_occurs {t : Str} {g : Str × Str × Str}
    (h : ytStep3 t = some g) : occursIn spanOpenLit t := by
  cases t with
  | nil => simp [ytStep3] at h
  | cons c1 t1 =>
    cases t1 with
    | nil => simp [ytStep3] at h
    | cons c2 r =>
      simp only [ytStep3] at h
      by_cases hc : c1 = 't' ∧ c2 = '='
      · rw [if_pos hc] at h
        by_cases hds : r.takeWhile Char.isDigit = []
        · simp [hds] at h
        · simp only [if_neg hds] at h
          cases hd : (r.drop (r.takeWhile Char.isDigit).length).dropWhile jsWs with
          | nil => rw [hd] at h; simp at h
          | cons s0 r3 =>
            rw [hd] at h
            dsimp only [] at h
            by_cases hs0 : s0 = 's'
            · rw [if_pos hs0] at h
              cases h4 : ytStep4 r3 with
              | none => rw [h4] at h; simp at h
              | some g23 =>
                have hocc := ytStep4_occurs h4
                have hsuf : r3 <:+ c1 :: c2 :: r := by
                  have s1 : r3 <:+ s0 :: r3 := List.suffix_cons s0 r3
                  have s2 : s0 :: r3 <:+ r.drop (r.takeWhile Char.isDigit).length := by
                    rw [← hd]
                    exact List.dropWhile_suffix jsWs
                  have s3 : r.drop (r.takeWhile Char.isDigit).length <:+ r :=
                    List.drop_suffix _ r
                  have s4 : r <:+ c2 :: r := List.suffix_cons c2 r
                  have s5 : c2 :: r <:+ c1 :: c2 :: r := List.suffix_cons c1 _
                  exact ((((s1.trans s2).trans s3).trans s4).trans s5)
                exact occursIn_of_suffix hsuf hocc
            · rw [if_neg hs0] at h
              simp at h
      · rw [if_neg hc] at h
        simp at h

lemma ytAmpCands_suffix : ∀ {r x : Str}, x ∈ ytAmpCands r → x <:+ r := by
  intro r
  induction r with
  | nil => intro x h; simp [ytAmpCands] at h
  | cons c rr ih =>
    intro x h
    unfold ytAmpCands at h
    rcases List.mem_append.mp h with h1 | h2
    · by_cases hc : c = '&'
      · rw [if_pos hc] at h1
        simp at h1
        subst h1
        exact List.suffix_cons _ _
      · rw [if_neg hc] at h1
        simp at h1
    · by_cases hw : jsWs c
      · rw [if_pos hw] at h2
        simp at h2
      · rw [if_neg hw] at h2
        exact (ih h2).trans (List.suffix_cons c rr)

lemma firstSome_mem {α : Type} : ∀ {xs : List (Option α)} {a : α},
    firstSome xs = some a → some a ∈ xs := by
  intro xs
  induction xs with
  | nil => intro a h; simp [firstSome] at h
  | cons x rest ih =>
    intro a h
    cases x with
    | some b =>
      simp only [firstSome] at h
      rw [h]
      exact List.mem_cons_self _ _
    | none =>
      simp only [firstSome] at h
      exact List.mem_cons_of_mem _ (ih h)

lemma ytTryAt_occurs {t : Str} {g : Str × Str × Str}
    (h : ytTryAt t = some g) : occursIn spanOpenLit t := by
  cases t with
  | nil => simp [ytTryAt] at h
  | cons c r =>
    unfold ytTryAt at h
    dsimp only [] at h
    by_cases hc : c = '&'
    · rw [if_pos hc] at h
      cases hf : firstSome ((ytAmpCands r).map ytStep3) with
      | some g2 =>
        rw [hf] at h
        simp at h
        subst h
        have hmem := firstSome_mem hf
        obtain ⟨x, hx, hx2⟩ := List.mem_map.mp hmem
        have hocc := ytStep3_occurs hx2
        exact occursIn_of_suffix
          ((ytAmpCands_suffix hx).trans (List.suffix_cons c r)) hocc
      | none =>
        rw [hf] at h
        exact occursIn_of_suffix (List.suffix_cons c r) (ytStep3_occurs h)
    · rw [if_neg hc] at h
      simp at h

lemma ytjsExec_occurs : ∀ {s : Str} {g : Str × Str × Str},
    ytjsExec s = some g → occursIn spanOpenLit s := by
  intro s
  induction s with
  | nil => intro g h; simp [ytjsExec] at h
  | cons c r ih =>
    intro g h
    unfold ytjsExec at h
    cases ht : ytTryAt (c :: r) with
    | some g2 =>
      rw [ht] at h
      exact ytTryAt_occurs ht
    | none =>
      rw [ht] at h
      exact occursIn_of_suffix (List.suffix_cons c r) (ih h)

/-- An occurrence of `<span` in `l ++ "</span>"` lies entirely inside `l`:
no split of `<span` across the boundary matches, and `"</span>"` itself
contains no `<span`. -/
lemma span_no_cross {l : Str} (h : occursIn spanOpenLit (l ++ closeSpanLit)) :
    occursIn spanOpenLit l := by
  obtain ⟨a, b, hab⟩ := h
  have hsp : spanOpenLit.length = 5 := by decide
  by_cases hlen : a.length + spanOpenLit.length ≤ l.length
  · refine ⟨a, l.drop (a.length + spanOpenLit.length), ?_⟩
    have h1 : l.take (a.length + spanOpenLit.length) = a ++ spanOpenLit := by
      have h2 : (l ++ closeSpanLit).take (a.length + spanOpenLit.length)
          = a ++ spanOpenLit := by
        rw [hab, List.take_left' (by simp)]
      rw [List.take_append_of_le_length hlen] at h2
      exact h2
    conv_lhs => rw [← List.take_append_drop (a.length + spanOpenLit.length) l]
    rw [h1]
  · exfalso
    have hcb : closeSpanLit.length = 7 := by decide
    have hlen2 : l.length + 7 = a.length + 5 + b.length := by
      have hll := congrArg List.length hab
      simp [hcb, hsp] at hll
      omega
    by_cases hax : l.length ≤ a.length
    · -- the occurrence would lie inside closeSpanLit
      have hd := congrArg (List.drop l.length) hab
      rw [List.drop_left' rfl, List.append_assoc,
        List.drop_append_of_le_length hax] at hd
      set j := a.length - l.length with hjdef
      have hj2 : j ≤ 2 := by omega
      have hlj : (a.drop l.length).length = j := by simp [hjdef]
      have hd2 := congrArg (List.drop j) hd
      rw [List.drop_left' hlj] at hd2
      have hj0 : (closeSpanLit.drop j).take 5 = spanOpenLit := by
        rw [hd2, List.take_left' hsp]
      interval_cases j
      · revert hj0; decide
      · revert hj0; decide
      · revert hj0; decide
    · -- the occurrence crosses the boundary
      set k := l.length - a.length with hkdef
      have hk1 : 1 ≤ k := by omega
      have hk4 : k ≤ 4 := by omega
      have hl2 : l.length = a.length + k := by omega
      have hd := congrArg (List.drop l.length) hab
      rw [List.drop_left' rfl] at hd
      rw [List.drop_append_of_le_length (by simp [hsp]; omega), hl2,
        List.drop_append] at hd
      have hpre : (spanOpenLit.drop k).isPrefixOf closeSpanLit = true := by
        rw [ List.isPrefixOf_iff_prefix]
        exact ⟨b, hd.symm⟩
      interval_cases k
      · revert hpre; decide
      · revert hpre; decide
      · revert hpre; decide
      · revert hpre; decide

/- ### Lemmas: digit captures and `convertToSeconds` -/

lemma isDigit_ne {c d : Char} (h : c.isDigit = true) (hd : d.isDigit = false) :
    c ≠ d := by
  intro e
  subst e
  rw [h] at hd
  simp at hd

lemma isDigit_not_jsWs {c : Char} (h : c.isDigit = true) : jsWs c = false := by
  unfold jsWs
  simp only [decide_eq_false_iff_not]
  intro hor
  have hv : 48 ≤ c.val ∧ c.val ≤ 57 := by simpa [Char.isDigit] using h
  rcases hor with h1|h1|h1|h1|h1|h1|h1|h1|⟨hlo,hhi⟩|h1|h1|h1|h1|h1|h1
  all_goals try (subst h1; revert hv; decide)
  have hlo2 := Char.le_def.mp hlo
  have hle : _ ≤ (57 : UInt32) := UInt32.le_trans hlo2 hv.2
  revert hle
  decide

lemma takeWhile_digits_self {ds : Str} (h : ∀ c ∈ ds, c.isDigit = true) :
    ds.takeWhile Char.isDigit = ds :=
  List.takeWhile_eq_self_iff.mpr h

lemma hexStart_digits {ds : Str} (h : ∀ c ∈ ds, c.isDigit = true) :
    hexStart ds = false := by
  cases ds with
  | nil => rfl
  | cons a t =>
    cases t with
    | nil => rfl
    | cons b t2 =>
      have hb : b.isDigit = true := h b (by simp)
      have hbx : b ≠ 'x' := isDigit_ne hb (by decide)
      have hbX : b ≠ 'X' := isDigit_ne hb (by decide)
      simp [hexStart, hbx, hbX]

lemma parsePrefixNat_digits {ds : Str} (hne : ds ≠ [])
    (h : ∀ c ∈ ds, c.isDigit = true) :
    parsePrefixNat ds = some (digitsToNat ds) := by
  unfold parsePrefixNat
  rw [hexStart_digits h]
  simp only [Bool.false_eq_true, if_false]
  rw [takeWhile_digits_self h, if_neg hne]

lemma log2f_eq : ∀ {fuel n : Nat}, n ≤ fuel → log2f fuel n = Nat.log2 n := by
  intro fuel
  induction fuel with
  | zero =>
    intro n h
    have hn : n = 0 := by omega
    subst hn
    rw [Nat.log2, if_neg (by omega)]
    rfl
  | succ f ih =>
    intro n h
    rw [log2f]
    by_cases h2 : n < 2
    · rw [if_pos h2, Nat.log2, if_neg (by omega)]
    · rw [if_neg h2, ih (show n / 2 ≤ f by omega)]
      have hl : Nat.log2 n = Nat.log2 (n / 2) + 1 := by
        rw [Nat.log2]
        rw [if_pos (by omega)]
      rw [hl]

lemma log2n_eq (n : Nat) : log2n n = Nat.log2 n := log2f_eq (Nat.le_refl n)

lemma roundToDouble_small {v : Int} (h : v.natAbs < 2 ^ 53) :
    roundToDouble v = JsNum.fin v := by
  have hr : roundNat v.natAbs = some v.natAbs := by
    unfold roundNat
    rw [if_pos h]
  unfold roundToDouble
  rw [hr]
  dsimp only []
  have hv : (if v < 0 then -((v.natAbs : Int)) else ((v.natAbs : Int))) = v := by
    by_cases hneg : v < 0
    · rw [if_pos hneg]
      omega
    · rw [if_neg hneg]
      omega
  rw [hv]

lemma roundToDouble_nat (n : Nat) :
    (∃ m : Nat, roundToDouble (n : Int) = JsNum.fin ((m : Nat) : Int)) ∨
      roundToDouble (n : Int) = JsNum.posInf := by
  have hnn : ¬ ((n : Int) < 0) := by omega
  unfold roundToDouble
  cases hr : roundNat ((n : Int)).natAbs with
  | some m =>
    left
    refine ⟨m, ?_⟩
    dsimp only []
    rw [if_neg hnn]
  | none =>
    right
    dsimp only []
    rw [if_neg hnn]

lemma jsMul_fin_exact {v k : Int} (h : (v * k).natAbs < 2 ^ 53) :
    jsMul (JsNum.fin v) k = JsNum.fin (v * k) := by
  unfold jsMul
  exact roundToDouble_small h

lemma jsAdd_fin_exact {a b : Int} (h : (a + b).natAbs < 2 ^ 53) :
    jsAdd (JsNum.fin a) (JsNum.fin b) = JsNum.fin (a + b) := by
  unfold jsAdd
  exact roundToDouble_small h

lemma parseIntJs_digits {ds : Str} (hne : ds ≠ [])
    (h : ∀ c ∈ ds, c.isDigit = true) :
    parseIntJs ds = roundToDouble ((digitsToNat ds : Nat) : Int) := by
  cases ds with
  | nil => exact absurd rfl hne
  | cons c r =>
    have hc : c.isDigit = true := h c (by simp)
    have hdw : (c :: r).dropWhile jsWs = c :: r := by
      rw [List.dropWhile_cons]
      rw [isDigit_not_jsWs hc]
      simp
    unfold parseIntJs
    rw [hdw]
    dsimp only []
    rw [if_neg (isDigit_ne hc (by decide) : c ≠ '-')]
    rw [if_neg (isDigit_ne hc (by decide) : c ≠ '+')]
    rw [parsePrefixNat_digits hne h]

lemma convertToSeconds_digits {ds : Str} (hne : ds ≠ [])
    (h : ∀ c ∈ ds, c.isDigit = true) :
    convertToSeconds ds = roundToDouble ((digitsToNat ds : Nat) : Int) := by
  have hnc : (':' : Char) ∉ ds := by
    intro hm
    exact (isDigit_ne (h _ hm) (by decide)) rfl
  unfold convertToSeconds
  rw [splitOnC_of_not_mem hnc]
  simp only [List.map_cons, List.map_nil]
  rw [parseIntJs_digits hne h]

lemma dropWhile_cons_false {p : Char → Bool} : ∀ {l : Str} {c : Char} {rest : Str},
    l.dropWhile p = c :: rest → p c = false := by
  intro l
  induction l with
  | nil => intro c rest h; simp at h
  | cons a t ih =>
    intro c rest h
    rw [List.dropWhile_cons] at h
    by_cases ha : p a = true
    · rw [ha] at h
      simp at h
      exact ih h
    · have ha2 : p a = false := by simpa using ha
      rw [ha2] at h
      simp at h
      rw [← h.1]
      exact ha2

lemma tailTitle_dotM {t ti : Str} (h : tailTitle t = some ti) :
    ∀ c ∈ ti, dotM c = true := by
  unfold tailTitle at h
  dsimp only [] at h
  cases hd : t.drop (t.takeWhile jsWs).length with
  | nil =>
    rw [hd] at h
    dsimp only [] at h
    cases hw : (t.takeWhile jsWs).reverse.dropWhile (fun c => not (dotM c)) with
    | nil => rw [hw] at h; simp at h
    | cons c0 rest =>
      rw [hw] at h
      simp at h
      have := dropWhile_cons_false hw
      simp at this
      intro c hc
      rw [← h] at hc
      simp at hc
      rw [hc]
      exact this
  | cons c0 r2 =>
    rw [hd] at h
    dsimp only [] at h
    simp at h
    intro c hc
    rw [← h] at hc
    exact List.mem_takeWhile_imp hc

lemma invTryAt_props {l h1 t1 c1 ti : Str}
    (h : invTryAt l = some (h1, t1, c1, ti)) :
    (t1 ≠ [] ∧ ∀ c ∈ t1, c.isDigit = true) ∧ (∀ c ∈ ti, dotM c = true) := by
  unfold invTryAt at h
  by_cases hp : anchorLit.isPrefixOf l
  case neg => rw [if_neg hp] at h; simp at h
  case pos =>
    rw [if_pos hp] at h
    cases hs : splitAtFirst (fun x => x == '"') (l.drop anchorLit.length) with
    | none => rw [hs] at h; simp at h
    | some ab =>
      obtain ⟨href, r1⟩ := ab
      rw [hs] at h
      dsimp only [] at h
      by_cases hnil : href = []
      · rw [if_pos hnil] at h; simp at h
      · rw [if_neg hnil] at h
        by_cases ho : onclickLit.isPrefixOf r1
        · rw [if_pos ho] at h
          by_cases hds :
              (r1.drop onclickLit.length).takeWhile Char.isDigit = []
          · rw [if_pos hds] at h; simp at h
          · rw [if_neg hds] at h
            by_cases hq : quoteGtLit.isPrefixOf
                ((r1.drop onclickLit.length).drop
                  ((r1.drop onclickLit.length).takeWhile Char.isDigit).length)
            · rw [if_pos hq] at h
              cases hcp : clockParse
                  (((r1.drop onclickLit.length).drop
                    ((r1.drop onclickLit.length).takeWhile Char.isDigit).length).drop
                    quoteGtLit.length) with
              | none => rw [hcp] at h; simp at h
              | some cr =>
                obtain ⟨clock, r5⟩ := cr
                rw [hcp] at h
                dsimp only [] at h
                cases htt : tailTitle r5 with
                | none => rw [htt] at h; simp at h
                | some title =>
                  rw [htt] at h
                  simp at h
                  obtain ⟨e1, e2, e3, e4⟩ := h
                  constructor
                  · constructor
                    · rw [← e2]; exact hds
                    · intro c hc
                      rw [← e2] at hc
                      exact List.mem_takeWhile_imp hc
                  · intro c hc
                    rw [← e4] at hc
                    exact tailTitle_dotM htt c hc
            · rw [if_neg hq] at h; simp at h
        · rw [if_neg ho] at h; simp at h

lemma invExec_props {l : Str} {g : Str × Str × Str × Str}
    (h : invExec l = some g) :
    (g.2.1 ≠ [] ∧ ∀ c ∈ g.2.1, c.isDigit = true) ∧
      (∀ c ∈ g.2.2.2, dotM c = true) := by
  obtain ⟨t, _, htry⟩ := invExec_suffix h
  obtain ⟨g1, g2, g3, g4⟩ := g
  exact invTryAt_props htry

lemma ytStep7_dotM : ∀ {t g : Str}, ytStep7 t = some g →
    ∀ c ∈ g, dotM c = true := by
  intro t
  induction t with
  | nil => intro g h; simp [ytStep7] at h
  | cons c0 r ih =>
    intro g h
    unfold ytStep7 at h
    by_cases hp : closeSpanLit.isPrefixOf (c0 :: r)
    · rw [if_pos hp] at h
      simp at h
      subst h
      simp
    · rw [if_neg hp] at h
      by_cases hdot : dotM c0
      · rw [if_pos hdot] at h
        cases h7 : ytStep7 r with
        | none => rw [h7] at h; simp at h
        | some g2 =>
          rw [h7] at h
          simp at h
          intro c hc
          rw [← h] at hc
          rcases List.mem_cons.mp hc with h1 | h2
          · subst h1; exact hdot
          · exact ih h7 c h2
      · rw [if_neg hdot] at h; simp at h

lemma ytStep6_dotM : ∀ {t g : Str}, ytStep6 t = some g →
    ∀ c ∈ g, dotM c = true := by
  intro t
  induction t with
  | nil => intro g h; simp [ytStep6] at h
  | cons c0 r ih =>
    intro g h
    unfold ytStep6 at h
    by_cases hgt : c0 = '>'
    · rw [if_pos hgt] at h
      cases h7 : ytStep7 r with
      | some g2 =>
        rw [h7] at h
        simp at h
        subst h
        exact ytStep7_dotM h7
      | none =>
        rw [h7] at h
        by_cases hdot : dotM c0
        · rw [if_pos hdot] at h
          exact ih h
        · rw [if_neg hdot] at h; simp at h
    · rw [if_neg hgt] at h
      by_cases hdot : dotM c0
      · rw [if_pos hdot] at h
        exact ih h
      · rw [if_neg hdot] at h; simp at h

lemma ytStep5_dotM {t g2 g3 : Str} (h : ytStep5 t = some (g2, g3)) :
    ∀ c ∈ g3, dotM c = true := by
  unfold ytStep5 at h
  dsimp only [] at h
  by_cases hp : closeSpanLit.isPrefixOf
      (t.drop (t.takeWhile (fun c => c != '<')).length)
  · rw [if_pos hp] at h
    cases h6 : ytStep6
        ((t.drop (t.takeWhile (fun c => c != '<')).length).drop
          closeSpanLit.length) with
    | none => rw [h6] at h; simp at h
    | some g =>
      rw [h6] at h
      simp at h
      rw [← h.2]
      exact ytStep6_dotM h6
  · rw [if_neg hp] at h; simp at h

lemma ytStep4_dotM : ∀ {t : Str} {g2 g3 : Str}, ytStep4 t = some (g2, g3) →
    ∀ c ∈ g3, dotM c = true := by
  intro t
  induction t with
  | nil => intro g2 g3 h; simp [ytStep4] at h
  | cons c0 r ih =>
    intro g2 g3 h
    by_cases hp : spanOpenLit.isPrefixOf (c0 :: r)
    · simp only [ytStep4, if_pos hp] at h
      by_cases hrest : ((c0 :: r).drop spanOpenLit.length).drop
          (((c0 :: r).drop spanOpenLit.length).takeWhile
            (fun x => x != '>')).length = []
      · rw [if_pos hrest] at h
        dsimp only [] at h
        by_cases hdot : dotM c0
        · rw [if_pos hdot] at h
          exact ih h
        · rw [if_neg hdot] at h; simp at h
      · rw [if_neg hrest] at h
        cases h5 : ytStep5
            ((((c0 :: r).drop spanOpenLit.length).drop
              (((c0 :: r).drop spanOpenLit.length).takeWhile
                (fun x => x != '>')).length).drop 1) with
        | some res =>
          obtain ⟨a2, a3⟩ := res
          rw [h5] at h
          dsimp only [] at h
          simp at h
          obtain ⟨e2, e3⟩ := h
          rw [← e3]
          exact ytStep5_dotM h5
        | none =>
          rw [h5] at h
          dsimp only [] at h
          by_cases hdot : dotM c0
          · rw [if_pos hdot] at h
            exact ih h
          · rw [if_neg hdot] at h; simp at h
    · simp only [ytStep4, if_neg hp] at h
      by_cases hdot : dotM c0
      · rw [if_pos hdot] at h
        exact ih h
      · rw [if_neg hdot] at h; simp at h

lemma ytStep3_props {t : Str} {ds g2 g3 : Str}
    (h : ytStep3 t = some (ds, g2, g3)) :
    (ds ≠ [] ∧ ∀ c ∈ ds, c.isDigit = true) ∧ (∀ c ∈ g3, dotM c = true) := by
  cases t with
  | nil => simp [ytStep3] at h
  | cons c1 t1 =>
    cases t1 with
    | nil => simp [ytStep3] at h
    | cons c2 r =>
      simp only [ytStep3] at h
      by_cases hc : c1 = 't' ∧ c2 = '='
      · rw [if_pos hc] at h
        by_cases hds : r.takeWhile Char.isDigit = []
        · simp [hds] at h
        · simp only [if_neg hds] at h
          cases hd : (r.drop (r.takeWhile Char.isDigit).length).dropWhile jsWs with
          | nil => rw [hd] at h; simp at h
          | cons s0 r3 =>
            rw [hd] at h
            dsimp only [] at h
            by_cases hs0 : s0 = 's'
            · rw [if_pos hs0] at h
              cases h4 : ytStep4 r3 with
              | none => rw [h4] at h; simp at h
              | some g23 =>
                obtain ⟨a2, a3⟩ := g23
                rw [h4] at h
                dsimp only [] at h
                simp at h
                obtain ⟨e1, e2, e3⟩ := h
                refine ⟨⟨?_, ?_⟩, ?_⟩
                · rw [← e1]; exact hds
                · intro c hc2
                  rw [← e1] at hc2
                  exact List.mem_takeWhile_imp hc2
                · intro c hc2
                  rw [← e3] at hc2
                  exact ytStep4_dotM h4 c hc2
            · rw [if_neg hs0] at h; simp at h
      · rw [if_neg hc] at h; simp at h

lemma ytTryAt_props {t : Str} {g : Str × Str × Str}
    (h : ytTryAt t = some g) :
    (g.1 ≠ [] ∧ ∀ c ∈ g.1, c.isDigit = true) ∧
      (∀ c ∈ g.2.2, dotM c = true) := by
  cases t with
  | nil => simp [ytTryAt] at h
  | cons c r =>
    unfold ytTryAt at h
    dsimp only [] at h
    by_cases hc : c = '&'
    · rw [if_pos hc] at h
      obtain ⟨g1, g2, g3⟩ := g
      cases hf : firstSome ((ytAmpCands r).map ytStep3) with
      | some gg =>
        rw [hf] at h
        simp at h
        subst h
        obtain ⟨x, _, hx2⟩ := List.mem_map.mp (firstSome_mem hf)
        exact ytStep3_props hx2
      | none =>
        rw [hf] at h
        exact ytStep3_props h
    · rw [if_neg hc] at h
      simp at h

lemma ytjsExec_props : ∀ {s : Str} {g : Str × Str × Str},
    ytjsExec s = some g →
    (g.1 ≠ [] ∧ ∀ c ∈ g.1, c.isDigit = true) ∧
      (∀ c ∈ g.2.2, dotM c = true) := by
  intro s
  induction s with
  | nil => intro g h; simp [ytjsExec] at h
  | cons c r ih =>
    intro g h
    unfold ytjsExec at h
    cases ht : ytTryAt (c :: r) with
    | some g2 =>
      rw [ht] at h
      simp at h
      subst h
      exact ytTryAt_props ht
    | none =>
      rw [ht] at h
      exact ih h

lemma tsMatchOf_props {m : Bool} {l : Str} {g : Str × Str × Str}
    (h : tsMatchOf m l = some g) :
    (g.1 ≠ [] ∧ ∀ c ∈ g.1, c.isDigit = true) ∧
      (∀ c ∈ g.2.2, dotM c = true) := by
  unfold tsMatchOf at h
  cases m with
  | true =>
    rw [if_pos rfl] at h
    exact ytjsExec_props h
  | false =>
    simp only [Bool.false_eq_true, if_false] at h
    cases hi : invExec l with
    | none => rw [hi] at h; simp at h
    | some g4 =>
      obtain ⟨gg1, gg2, gg3, gg4⟩ := g4
      obtain ⟨g1, g2, g3⟩ := g
      rw [hi] at h
      dsimp only [] at h
      simp at h
      obtain ⟨e1, e2, e3⟩ := h
      have hp := invExec_props hi
      subst e1
      subst e2
      subst e3
      exact hp

/- ### Lemmas: the title-cleaning pipeline -/

lemma stripTags_sublist (s : Str) : List.Sublist (stripTags s) s := by
  induction s using stripTags.induct with
  | case1 => simp [stripTags]
  | case2 r hcond ih =>
    rw [stripTags]
    rw [if_pos rfl, if_pos hcond]
    have hsub : List.Sublist
        ((r.drop (r.takeWhile (fun x => x != '>')).length).drop 1) r :=
      (List.drop_sublist _ _).trans (List.drop_sublist _ _)
    exact (ih.trans hsub).cons '<'
  | case3 r hcond ih =>
    rw [stripTags]
    rw [if_pos rfl, if_neg hcond]
    exact ih.cons₂ '<'
  | case4 c r hc ih =>
    rw [stripTags]
    rw [if_neg hc]
    exact ih.cons₂ c

lemma stripTags_tagFree (s : Str) : TagFree (stripTags s) := by
  induction s using stripTags.induct with
  | case1 =>
    rintro ⟨a, m, b, hm, _, habs⟩
    simp [stripTags] at habs
  | case2 r hcond ih =>
    rw [stripTags]
    rw [if_pos rfl, if_pos hcond]
    exact ih
  | case3 r hcond ih =>
    rw [stripTags]
    rw [if_pos rfl, if_neg hcond]
    rintro ⟨a, m, b, hm, hmn, habs⟩
    cases a with
    | cons a0 a2 =>
      rw [List.cons_append] at habs
      have h2 : stripTags r = a2 ++ '<' :: (m ++ '>' :: b) :=
        ((List.cons.injEq _ _ _ _).mp habs).2
      exact ih ⟨a2, m, b, hm, hmn, h2⟩
    | nil =>
      rw [List.nil_append] at habs
      have habs2 : stripTags r = m ++ '>' :: b :=
        ((List.cons.injEq _ _ _ _).mp habs).2
      rcases not_and_or.mp hcond with hmid | hrest
      · have hmid2 : r.takeWhile (fun x => x != '>') = [] := not_not.mp hmid
        cases r with
        | nil =>
          rw [stripTags] at habs2
          exact (List.cons_ne_nil _ _) (List.append_eq_nil.mp habs2.symm).2
        | cons r0 rr =>
          have hr0 : r0 = '>' := by
            by_cases hx : (r0 != '>') = true
            · rw [List.takeWhile_cons, hx] at hmid2
              simp at hmid2
            · simpa using hx
          rw [hr0] at habs2
          rw [stripTags] at habs2
          rw [if_neg (by decide : ¬('>' : Char) = '<')] at habs2
          cases m with
          | nil => exact hm rfl
          | cons m0 m2 =>
            rw [List.cons_append] at habs2
            have : '>' = m0 := ((List.cons.injEq _ _ _ _).mp habs2).1
            exact hmn m0 (by simp) this.symm
      · have hrest2 : r.drop (r.takeWhile (fun x => x != '>')).length = [] :=
          not_not.mp hrest
        have hlen : (r.takeWhile (fun x => x != '>')).length = r.length := by
          have hld := congrArg List.length hrest2
          simp at hld
          have hle : (r.takeWhile (fun x => x != '>')).length ≤ r.length :=
            ( List.takeWhile_prefix _).length_le
          omega
        have htk : r.takeWhile (fun x => x != '>') = r :=
          ( List.takeWhile_prefix _).eq_of_length hlen
        have hngr : ∀ x ∈ r, x ≠ '>' := by
          intro x hx
          have hx2 : x ∈ r.takeWhile (fun x => x != '>') := by
            rw [htk]
            exact hx
          have hxx := List.mem_takeWhile_imp hx2
          simpa using hxx
        have hin : ('>' : Char) ∈ stripTags r := by
          rw [habs2]
          simp
        exact hngr '>' ((stripTags_sublist r).subset hin) rfl
  | case4 c r hc ih =>
    rw [stripTags]
    rw [if_neg hc]
    rintro ⟨a, m, b, hm, hmn, habs⟩
    cases a with
    | nil =>
      rw [List.nil_append] at habs
      exact hc ((List.cons.injEq _ _ _ _).mp habs).1
    | cons a0 a2 =>
      rw [List.cons_append] at habs
      have h2 : stripTags r = a2 ++ '<' :: (m ++ '>' :: b) :=
        ((List.cons.injEq _ _ _ _).mp habs).2
      exact ih ⟨a2, m, b, hm, hmn, h2⟩

lemma tagFree_within {s u a b : Str} (hs : s = a ++ u ++ b) (h : TagFree s) :
    TagFree u := by
  rintro ⟨x, m, y, hm, hmn, hu⟩
  exact h ⟨a ++ x, m, y ++ b, hm, hmn, by rw [hs, hu]; simp⟩

lemma trimStr_decomp (s : Str) :
    s = s.takeWhile jsWs ++ trimStr s ++
      ((s.dropWhile jsWs).reverse.takeWhile jsWs).reverse := by
  unfold trimStr
  conv_lhs => rw [← List.takeWhile_append_dropWhile (p := jsWs) (l := s)]
  rw [List.append_assoc]
  congr 1
  have h2 := List.takeWhile_append_dropWhile (p := jsWs)
    (l := (s.dropWhile jsWs).reverse)
  have h3 := congrArg List.reverse h2
  rw [List.reverse_append, List.reverse_reverse] at h3
  exact h3.symm

lemma mem_trimStr {s : Str} {c : Char} (h : c ∈ trimStr s) : c ∈ s := by
  have hinf := trimStr_decomp s
  rw [hinf]
  simp
  right
  left
  exact h

lemma removeNl_eq_of {s : Str} (h : ∀ c ∈ s, c ≠ '\n') : removeNl s = s := by
  unfold removeNl
  rw [List.filter_eq_self.mpr]
  intro a ha
  simpa using h a ha

lemma dotM_ne_nl {c : Char} (h : dotM c = true) : c ≠ '\n' := by
  intro e
  subst e
  revert h
  decide

lemma decodeHtml_chars (s : Str) :
    ∀ c ∈ decodeHtmlCharCodes s, c ∈ s ∨ c ∈ decodedChars := by
  induction s using decodeHtmlCharCodes.induct with
  | case1 => simp [decodeHtmlCharCodes]
  | case2 r h1 ih =>
    rw [decodeHtmlCharCodes]
    rw [if_pos rfl, if_pos h1]
    intro c hc
    rcases List.mem_cons.mp hc with he | hm
    · right; subst he; simp [decodedChars]
    · rcases ih c hm with hin | hdec
      · exact Or.inl (List.mem_cons_of_mem _ (List.mem_of_mem_drop hin))
      · exact Or.inr hdec
  | case3 r h1 h2 ih =>
    rw [decodeHtmlCharCodes]
    rw [if_pos rfl, if_neg h1, if_pos h2]
    intro c hc
    rcases List.mem_cons.mp hc with he | hm
    · right; subst he; simp [decodedChars]
    · rcases ih c hm with hin | hdec
      · exact Or.inl (List.mem_cons_of_mem _ (List.mem_of_mem_drop hin))
      · exact Or.inr hdec
  | case4 r h1 h2 h3 ih =>
    rw [decodeHtmlCharCodes]
    rw [if_pos rfl, if_neg h1, if_neg h2, if_pos h3]
    intro c hc
    rcases List.mem_cons.mp hc with he | hm
    · right; subst he; simp [decodedChars]
    · rcases ih c hm with hin | hdec
      · exact Or.inl (List.mem_cons_of_mem _ (List.mem_of_mem_drop hin))
      · exact Or.inr hdec
  | case5 r h1 h2 h3 h4 ih =>
    rw [decodeHtmlCharCodes]
    rw [if_pos rfl, if_neg h1, if_neg h2, if_neg h3, if_pos h4]
    intro c hc
    rcases List.mem_cons.mp hc with he | hm
    · right; subst he; simp [decodedChars]
    · rcases ih c hm with hin | hdec
      · exact Or.inl (List.mem_cons_of_mem _ (List.mem_of_mem_drop hin))
      · exact Or.inr hdec
  | case6 r h1 h2 h3 h4 h5 ih =>
    rw [decodeHtmlCharCodes]
    rw [if_pos rfl, if_neg h1, if_neg h2, if_neg h3, if_neg h4, if_pos h5]
    intro c hc
    rcases List.mem_cons.mp hc with he | hm
    · right; subst he; simp [decodedChars]
    · rcases ih c hm with hin | hdec
      · exact Or.inl (List.mem_cons_of_mem _ (List.mem_of_mem_drop hin))
      · exact Or.inr hdec
  | case7 r h1 h2 h3 h4 h5 ih =>
    rw [decodeHtmlCharCodes]
    rw [if_pos rfl, if_neg h1, if_neg h2, if_neg h3, if_neg h4, if_neg h5]
    intro c hc
    rcases List.mem_cons.mp hc with he | hm
    · subst he; exact Or.inl (List.mem_cons_self _ _)
    · rcases ih c hm with hin | hdec
      · exact Or.inl (List.mem_cons_of_mem _ hin)
      · exact Or.inr hdec
  | case8 c0 r h0 ih =>
    rw [decodeHtmlCharCodes]
    rw [if_neg h0]
    intro c hc
    rcases List.mem_cons.mp hc with he | hm
    · subst he; exact Or.inl (List.mem_cons_self _ _)
    · rcases ih c hm with hin | hdec
      · exact Or.inl (List.mem_cons_of_mem _ hin)
      · exact Or.inr hdec

lemma decode_no_nl {s : Str} (h : ∀ c ∈ s, c ≠ '\n') :
    ∀ c ∈ decodeHtmlCharCodes s, c ≠ '\n' := by
  intro c hc
  rcases decodeHtml_chars s c hc with hin | hdec
  · exact h c hin
  · intro e
    subst e
    revert hdec
    decide

/- ### Lemmas: per-line branch equations and identity on plain text -/

lemma occursIn_iff_sub {p s : Str} : occursIn p s ↔ p <:+: s := by
  constructor
  · rintro ⟨a, b, h⟩
    exact ⟨a, b, h.symm⟩
  · rintro ⟨a, b, h⟩
    exact ⟨a, b, h.symm⟩

lemma processLine_ts {m : Bool} {l : Str} {g : Str × Str × Str}
    (h : tsMatchOf m l = some g) :
    processLine m l = .entry (mkEntry g.1 g.2.1 g.2.2) := by
  unfold processLine
  rw [h]
  cases hu : urlExec l <;> rfl

lemma processLine_url {m : Bool} {l : Str} (h1 : urlExec l ≠ none)
    (h2 : tsMatchOf m l = none) :
    processLine m l = .keep (urlRewrite l) := by
  unfold processLine
  rw [h2]
  cases hu : urlExec l with
  | none => exact absurd hu h1
  | some g => rfl

lemma processLine_plain {m : Bool} {l : Str} (h1 : urlExec l = none)
    (h2 : tsMatchOf m l = none) : processLine m l = .keep l := by
  unfold processLine
  rw [h1, h2]

lemma filterMap_id_of {f : Str → Option Str} : ∀ {ls : List Str},
    (∀ l ∈ ls, f l = some l) → ls.filterMap f = ls := by
  intro ls
  induction ls with
  | nil => intro _; rfl
  | cons l rest ih =>
    intro h
    rw [List.filterMap_cons, h l (by simp)]
    rw [ih (fun x hx => h x (List.mem_cons_of_mem l hx))]

/-- If every line of `d` matches neither the URL pattern nor the mode's
timestamp pattern, `phaseDescription` returns `d` unchanged with no
timestamps. -/
lemma phase_id_of_plain {d : Str} {m : Bool}
    (h : ∀ l ∈ splitOnC '\n' d, urlExec l = none ∧ tsMatchOf m l = none) :
    phaseDescription d m = { description := d, timestamps := [] } := by
  rw [phaseDescription_eq]
  have hk : (splitOnC '\n' d).filterMap (keepOf m) = splitOnC '\n' d :=
    filterMap_id_of (fun l hl => keepOf_eq_plain (h l hl).2 (h l hl).1)
  have he : (splitOnC '\n' d).filterMap (entryOf m) = [] :=
    List.filterMap_eq_nil_iff.mpr (fun l hl => entryOf_eq_none (h l hl).2)
  rw [hk, he, joinC_splitOnC]

lemma urlRewrite_no_nl {l : Str} (h : ('\n' : Char) ∉ l) :
    ('\n' : Char) ∉ urlRewrite l := by
  unfold urlRewrite
  cases hu : urlExec l with
  | none => exact h
  | some g =>
    obtain ⟨pre, cap, rest⟩ := g
    obtain ⟨he, _, _⟩ := urlExec_some hu
    intro hmem
    simp at hmem
    rcases hmem with h1 | h1 | h1 | h1 | h1
    · exact h (by rw [he]; simp [h1])
    · revert h1
      rw [show anchorLit = anchorLit from rfl]
      decide
    · exact h (by rw [he]; simp [h1])
    · revert h1
      decide
    · exact h (by rw [he]; simp [h1])

/- ### Concrete evaluations through the title pipeline -/

lemma c6_eval : phaseDescription c6cex false =
    ⟨[], [⟨['I'], JsNum.fin 5, ['0', ':', '0', '5']⟩]⟩ := by
  have hts : tsMatchOf false c6cex =
      some (['5'], ['0', ':', '0', '5'], ['I']) := by decide
  unfold phaseDescription
  rw [show splitOnC '\n' c6cex = [c6cex] from by decide]
  simp only [phaseLoop]
  rw [processLine_ts hts]
  have ht : decodeHtmlCharCodes (trimStr (removeNl (stripTags ['I']))) = ['I'] := by
    rw [show stripTags ['I'] = ['I'] from by simp [stripTags]]
    rw [show trimStr (removeNl ['I']) = ['I'] from by decide]
    simp [decodeHtmlCharCodes]
  have hme : mkEntry ['5'] ['0', ':', '0', '5'] ['I'] =
      (⟨['I'], JsNum.fin 5, ['0', ':', '0', '5']⟩ : TimestampEntry) := by
    unfold mkEntry
    rw [ht]
    rw [show convertToSeconds ['5'] = JsNum.fin 5 from by decide]
  rw [hme]
  rfl

lemma c8_eval : phaseDescription c8line false =
    ⟨[], [⟨['A', ' ', '&', ' ', 'B'], JsNum.fin 5, ['0', ':', '0', '5']⟩]⟩ := by
  have hts : tsMatchOf false c8line =
      some (['5'], ['0', ':', '0', '5'],
        ['A', ' ', '&', 'a', 'm', 'p', ';', ' ', 'B']) := by decide
  unfold phaseDescription
  rw [show splitOnC '\n' c8line = [c8line] from by decide]
  simp only [phaseLoop]
  rw [processLine_ts hts]
  have ht : decodeHtmlCharCodes (trimStr (removeNl
      (stripTags ['A', ' ', '&', 'a', 'm', 'p', ';', ' ', 'B']))) =
      ['A', ' ', '&', ' ', 'B'] := by
    rw [show stripTags ['A', ' ', '&', 'a', 'm', 'p', ';', ' ', 'B'] =
        ['A', ' ', '&', 'a', 'm', 'p', ';', ' ', 'B'] from by simp [stripTags]]
    rw [show trimStr (removeNl ['A', ' ', '&', 'a', 'm', 'p', ';', ' ', 'B']) =
        ['A', ' ', '&', 'a', 'm', 'p', ';', ' ', 'B'] from by decide]
    simp [decodeHtmlCharCodes, ampEnt, ltEnt, gtEnt, quotEnt, aposEnt]
  have hme : mkEntry ['5'] ['0', ':', '0', '5']
      ['A', ' ', '&', 'a', 'm', 'p', ';', ' ', 'B'] =
      (⟨['A', ' ', '&', ' ', 'B'], JsNum.fin 5, ['0', ':', '0', '5']⟩ : TimestampEntry) := by
    unfold mkEntry
    rw [ht]
    rw [show convertToSeconds ['5'] = JsNum.fin 5 from by decide]
  rw [hme]
  rfl

/- ### Claim theorems -/

/-- Claim C1: for every input string and format mode, `phaseDescription`
produces exactly one timestamp entry per timestamp-matched line, in input
order, and the description is the lines joined with `\n` after removing
exactly the timestamp-matched lines and rewriting the URL-matched
(non-timestamp) lines, with every other line retained byte-for-byte
unchanged (`keepOf` and `entryOf` state that per-line policy). -/
theorem claim1_line_structure (content : Str) (m : Bool) :
    phaseDescription content m =
      { description :=
          joinC '\n' ((splitOnC '\n' content).filterMap (keepOf m))
      , timestamps := (splitOnC '\n' content).filterMap (entryOf m) } ∧
    ((splitOnC '\n' content).filterMap (entryOf m)).length =
      ((splitOnC '\n' content).filter
        (fun l => (tsMatchOf m l).isSome)).length :=
  ⟨phaseDescription_eq content m, entry_count m (splitOnC '\n' content)⟩

/-- Claim C2 as stated is false: running `phaseDescription` on its own
description output is not the identity, because a URL-matched line is
rewritten again, duplicating the injected anchor attributes. -/
theorem claim2_cex :
    (phaseDescription
        (phaseDescription c2cex false).description false).description ≠
      (phaseDescription c2cex false).description := by decide

/-- Claim C2 amended: applying `phaseDescription` to the description of its
own output yields that description unchanged and an empty timestamps list
provided no line of that description matches the URL pattern or the chosen
mode's timestamp pattern; unconditional idempotence fails because
URL-matched lines get their injected attributes duplicated. -/
theorem claim2_idempotent_amended (content : Str) (m m2 : Bool)
    (h : ∀ l ∈ splitOnC '\n' (phaseDescription content m).description,
      urlExec l = none ∧ tsMatchOf m2 l = none) :
    phaseDescription (phaseDescription content m).description m2 =
      { description := (phaseDescription content m).description
      , timestamps := [] } :=
  phase_id_of_plain h

/-- Witness for the amended claim C2 at a concrete input. -/
theorem claim2_witness :
    (∀ l ∈ splitOnC '\n' (phaseDescription helloStr false).description,
      urlExec l = none ∧ tsMatchOf false l = none) ∧
    phaseDescription (phaseDescription helloStr false).description false =
      { description := (phaseDescription helloStr false).description
      , timestamps := [] } :=
  ⟨by decide, claim2_idempotent_amended helloStr false false (by decide)⟩

/-- Claim C3 as stated is false: in the YouTube.js mode an input with no
anchor tag can still match the timestamp pattern (it only needs a
`t=<seconds>s` marker and a span), so the input is not returned unchanged. -/
theorem claim3_cex :
    ¬ occursIn anchorLit c3cex ∧
    phaseDescription c3cex true ≠
      { description := c3cex, timestamps := [] } := by
  constructor
  · rw [occursIn_iff_sub]
    decide
  · decide

/-- Claim C3 amended: an input with no occurrence of `<a href="` is returned
unchanged with no timestamps in the legacy mode; in the YouTube.js mode the
same holds under the additional assumption that `<span` does not occur. -/
theorem claim3_no_anchor_amended (content : Str) (m : Bool)
    (h1 : ¬ occursIn anchorLit content)
    (h2 : m = true → ¬ occursIn spanOpenLit content) :
    phaseDescription content m =
      { description := content, timestamps := [] } := by
  apply phase_id_of_plain
  intro l hl
  obtain ⟨a, b, hab⟩ := mem_splitOnC_decomp hl
  constructor
  · cases hu : urlExec l with
    | none => rfl
    | some g =>
      exact absurd (occursIn_within hab (urlExec_some_occurs hu)) h1
  · cases m with
    | false =>
      unfold tsMatchOf
      simp only [Bool.false_eq_true, if_false]
      cases hi : invExec l with
      | none => rfl
      | some g =>
        exact absurd (occursIn_within hab (invExec_some_occurs hi)) h1
    | true =>
      unfold tsMatchOf
      rw [if_pos rfl]
      cases hy : ytjsExec (l ++ closeSpanLit) with
      | none => rfl
      | some g =>
        exact absurd
          (occursIn_within hab (span_no_cross (ytjsExec_occurs hy)))
          (h2 rfl)

/-- Witness for the amended claim C3 at a concrete input. -/
theorem claim3_witness :
    (¬ occursIn anchorLit helloStr) ∧
    phaseDescription helloStr true =
      { description := helloStr, timestamps := [] } := by
  constructor
  · rw [occursIn_iff_sub]
    decide
  · exact claim3_no_anchor_amended helloStr true
      (by rw [occursIn_iff_sub]; decide)
      (fun _ => by rw [occursIn_iff_sub]; decide)

/-- Claim C4: `convertToSeconds` splits on `:` and returns
h·3600 + m·60 + s for three parts, first·60 + second for two parts, and the
literal parsed value for one part (exactly so whenever the weighted sum
stays below 2^53, where double arithmetic is exact); in particular
`"1:05:30"` gives 3930, `"2:30"` gives 150 and `"45"` gives 45. -/
theorem claim4_convert :
    (∀ s1 s2 s3 : Str, ∀ n1 n2 n3 : Int, ':' ∉ s1 → ':' ∉ s2 → ':' ∉ s3 →
      parseIntJs s1 = JsNum.fin n1 → parseIntJs s2 = JsNum.fin n2 →
      parseIntJs s3 = JsNum.fin n3 →
      n1.natAbs * 3600 + n2.natAbs * 60 + n3.natAbs < 2 ^ 53 →
      convertToSeconds (s1 ++ (':' :: (s2 ++ (':' :: s3)))) =
        JsNum.fin (n1 * 3600 + n2 * 60 + n3)) ∧
    (∀ s1 s2 : Str, ∀ n1 n2 : Int, ':' ∉ s1 → ':' ∉ s2 →
      parseIntJs s1 = JsNum.fin n1 → parseIntJs s2 = JsNum.fin n2 →
      n1.natAbs * 60 + n2.natAbs < 2 ^ 53 →
      convertToSeconds (s1 ++ (':' :: s2)) = JsNum.fin (n1 * 60 + n2)) ∧
    (∀ s : Str, ':' ∉ s → convertToSeconds s = parseIntJs s) ∧
    convertToSeconds colon1530 = JsNum.fin 3930 ∧
    convertToSeconds colon230 = JsNum.fin 150 ∧
    convertToSeconds lit45 = JsNum.fin 45 := by
  refine ⟨?_, ?_, ?_, by decide, by decide, by decide⟩
  · intro s1 s2 s3 n1 n2 n3 h1 h2 h3 hp1 hp2 hp3 hb
    have hsplit : splitOnC ':' (s1 ++ (':' :: (s2 ++ (':' :: s3)))) =
        [s1, s2, s3] := by
      rw [splitOnC_append_sep h1, splitOnC_append_sep h2,
        splitOnC_of_not_mem h3]
    have e1 : (n1 * 3600).natAbs = n1.natAbs * 3600 := by
      rw [Int.natAbs_mul]
      rfl
    have e2 : (n2 * 60).natAbs = n2.natAbs * 60 := by
      rw [Int.natAbs_mul]
      rfl
    have e3 := Int.natAbs_add_le (n1 * 3600) (n2 * 60)
    have e4 := Int.natAbs_add_le (n1 * 3600 + n2 * 60) n3
    unfold convertToSeconds
    rw [hsplit]
    simp only [List.map_cons, List.map_nil]
    rw [hp1, hp2, hp3]
    show jsAdd (jsAdd (jsMul (JsNum.fin n1) 3600) (jsMul (JsNum.fin n2) 60))
        (JsNum.fin n3) = _
    rw [jsMul_fin_exact (by omega), jsMul_fin_exact (by omega),
      jsAdd_fin_exact (by omega), jsAdd_fin_exact (by omega)]
  · intro s1 s2 n1 n2 h1 h2 hp1 hp2 hb
    have hsplit : splitOnC ':' (s1 ++ (':' :: s2)) = [s1, s2] := by
      rw [splitOnC_append_sep h1, splitOnC_of_not_mem h2]
    have e1 : (n1 * 60).natAbs = n1.natAbs * 60 := by
      rw [Int.natAbs_mul]
      rfl
    have e2 := Int.natAbs_add_le (n1 * 60) n2
    unfold convertToSeconds
    rw [hsplit]
    simp only [List.map_cons, List.map_nil]
    rw [hp1, hp2]
    show jsAdd (jsMul (JsNum.fin n1) 60) (JsNum.fin n2) = _
    rw [jsMul_fin_exact (by omega), jsAdd_fin_exact (by omega)]
  · intro s h1
    unfold convertToSeconds
    rw [splitOnC_of_not_mem h1]
    simp only [List.map_cons, List.map_nil]

/-- Witness for claim C4 at the concrete parts of `"1:05:30"`. -/
theorem claim4_witness :
    (':' ∉ ['1'] ∧ ':' ∉ ['0', '5'] ∧ ':' ∉ ['3', '0']) ∧
    parseIntJs ['1'] = JsNum.fin 1 ∧ parseIntJs ['0', '5'] = JsNum.fin 5 ∧
    parseIntJs ['3', '0'] = JsNum.fin 30 ∧
    (1 : Int).natAbs * 3600 + (5 : Int).natAbs * 60 + (30 : Int).natAbs <
      2 ^ 53 ∧
    convertToSeconds (['1'] ++ (':' :: (['0', '5'] ++ (':' :: ['3', '0'])))) =
      JsNum.fin (1 * 3600 + 5 * 60 + 30) :=
  ⟨⟨by decide, by decide, by decide⟩, by decide, by decide, by decide,
    by decide,
    claim4_convert.1 ['1'] ['0', '5'] ['3', '0'] 1 5 30 (by decide)
      (by decide) (by decide) (by decide) (by decide) (by decide)
      (by decide)⟩

/-- Claim C5: a line matching the plain anchor pattern but no timestamp
pattern is retained in rewritten form; the rewrite appends
`target="_blank"`, `rel="noopener noreferrer"` and the `class="link"` CSS
class to the anchor, and the original href value is preserved in
`<a href="<href>"`. -/
theorem claim5_rewrite (m : Bool) (line : Str)
    (h1 : urlExec line ≠ none) (h2 : tsMatchOf m line = none) :
    processLine m line = .keep (urlRewrite line) ∧
    ∃ pre cap rest : Str,
      urlExec line = some (pre, cap, rest) ∧
      urlRewrite line = pre ++ anchorLit ++ cap ++ attrsTail ++ rest ∧
      occursIn targetLit (urlRewrite line) ∧
      occursIn relLit (urlRewrite line) ∧
      occursIn classLit (urlRewrite line) ∧
      occursIn (anchorLit ++ cap ++ ['\"']) (urlRewrite line) := by
  refine ⟨processLine_url h1 h2, ?_⟩
  cases hu : urlExec line with
  | none => exact absurd hu h1
  | some g =>
    obtain ⟨pre, cap, rest⟩ := g
    have hrw : urlRewrite line = pre ++ anchorLit ++ cap ++ attrsTail ++ rest := by
      unfold urlRewrite
      rw [hu]
    have hdec : attrsTail =
        ['\"', ' '] ++ targetLit ++
          (' ' :: (relLit ++ (' ' :: classLit))) := by decide
    refine ⟨pre, cap, rest, rfl, hrw, ?_, ?_, ?_, ?_⟩
    · refine ⟨pre ++ anchorLit ++ cap ++ ['\"', ' '],
        (' ' :: (relLit ++ (' ' :: classLit))) ++ rest, ?_⟩
      rw [hrw, hdec]
      simp
    · refine ⟨pre ++ anchorLit ++ cap ++ (['\"', ' '] ++ targetLit ++ [' ']),
        (' ' :: classLit) ++ rest, ?_⟩
      rw [hrw, hdec]
      simp
    · refine ⟨pre ++ anchorLit ++ cap ++
        (['\"', ' '] ++ targetLit ++ (' ' :: relLit) ++ [' ']), rest, ?_⟩
      rw [hrw, hdec]
      simp
    · refine ⟨pre,
        (' ' :: (targetLit ++ (' ' :: (relLit ++ (' ' :: classLit))))) ++
          rest, ?_⟩
      rw [hrw, hdec]
      simp

/-- Witness for claim C5 at a concrete anchor-only line. -/
theorem claim5_witness :
    (urlExec c5line ≠ none ∧ tsMatchOf false c5line = none) ∧
    processLine false c5line = .keep (urlRewrite c5line) :=
  ⟨⟨by decide, by decide⟩,
    (claim5_rewrite false c5line (by decide) (by decide)).1⟩

/-- Claim C6 as stated is false: when every input line is
timestamp-matched, the description is the empty string, and splitting it on
`\n` yields one (empty) line rather than zero. -/
theorem claim6_cex :
    (splitOnC '\n' (phaseDescription c6cex false).description).length ≠
      (splitOnC '\n' c6cex).length -
        (phaseDescription c6cex false).timestamps.length := by
  decide

/-- Claim C6 amended: the timestamps list has exactly one entry per
timestamp-matched line, and when at least one line is retained, the number
of lines obtained by splitting the returned description on `\n` equals the
number of input lines minus the number of timestamp entries (when no line
is retained, splitting the empty description yields one line instead). -/
theorem claim6_count_amended (content : Str) (m : Bool)
    (h : (splitOnC '\n' content).filterMap (keepOf m) ≠ []) :
    (phaseDescription content m).timestamps.length =
      ((splitOnC '\n' content).filter
        (fun l => (tsMatchOf m l).isSome)).length ∧
    (splitOnC '\n' (phaseDescription content m).description).length =
      (splitOnC '\n' content).length -
        (phaseDescription content m).timestamps.length := by
  rw [phaseDescription_eq]
  refine ⟨entry_count m _, ?_⟩
  have hfree : ∀ l ∈ (splitOnC '\n' content).filterMap (keepOf m),
      ('\n' : Char) ∉ l := by
    intro l hl
    obtain ⟨l0, hl0, hk⟩ := List.mem_filterMap.mp hl
    have hnl0 : ('\n' : Char) ∉ l0 := mem_splitOnC_not_sep hl0
    unfold keepOf at hk
    cases hts : tsMatchOf m l0 with
    | some g => rw [hts] at hk; simp at hk
    | none =>
      rw [hts] at hk
      by_cases hu : (urlExec l0).isSome
      · rw [if_pos hu] at hk
        simp at hk
        rw [← hk]
        exact urlRewrite_no_nl hnl0
      · rw [if_neg hu] at hk
        simp at hk
        rw [← hk]
        exact hnl0
  show (splitOnC '\n'
      (joinC '\n' ((splitOnC '\n' content).filterMap (keepOf m)))).length = _
  rw [splitOnC_joinC h hfree]
  have hc1 := keep_entry_count m (splitOnC '\n' content)
  have hc2 := entry_count m (splitOnC '\n' content)
  show _ = (splitOnC '\n' content).length -
    ((splitOnC '\n' content).filterMap (entryOf m)).length
  omega

/-- Witness for the amended claim C6 at a concrete input. -/
theorem claim6_witness :
    ((splitOnC '\n' helloStr).filterMap (keepOf false) ≠ []) ∧
    (splitOnC '\n' (phaseDescription helloStr false).description).length =
      (splitOnC '\n' helloStr).length -
        (phaseDescription helloStr false).timestamps.length :=
  ⟨by decide, (claim6_count_amended helloStr false (by decide)).2⟩

/-- Claim C7: the per-line classification is total — every line yields
either a timestamp entry or a retained line, a line matching nothing is
retained unchanged, and no line is lost: the number of input lines equals
the number of retained lines plus the number of timestamp entries.
`phaseDescription` itself is a total function of the embedding, so no
exception can escape it. -/
theorem claim7_totality (m : Bool) (l : Str) (content : Str) :
    ((∃ e, processLine m l = .entry e) ∨ (∃ l2, processLine m l = .keep l2)) ∧
    (urlExec l = none ∧ tsMatchOf m l = none → processLine m l = .keep l) ∧
    (splitOnC '\n' content).length =
      ((splitOnC '\n' content).filterMap (keepOf m)).length +
        (phaseDescription content m).timestamps.length := by
  refine ⟨?_, fun h => processLine_plain h.1 h.2, ?_⟩
  · cases hts : tsMatchOf m l with
    | some g => exact Or.inl ⟨_, processLine_ts hts⟩
    | none =>
      cases hu : urlExec l with
      | some g => exact Or.inr ⟨_, processLine_url (by simp [hu]) hts⟩
      | none => exact Or.inr ⟨_, processLine_plain hu hts⟩
  · rw [phaseDescription_eq]
    exact keep_entry_count m _

/-- Witness for claim C7 at a concrete line. -/
theorem claim7_witness :
    (urlExec helloStr = none ∧ tsMatchOf false helloStr = none) ∧
    processLine false helloStr = .keep helloStr :=
  ⟨by decide, (claim7_totality false helloStr helloStr).2.1 (by decide)⟩

/-- Claim C8: every timestamp entry's title is obtained from the raw
captured title by stripping `<...>` markup (the result contains no
`<[^>]+>` block), removing newline characters, trimming, and decoding HTML
character entities; the final title contains no newline. Concretely,
`&amp;` in a timestamp title is decoded to `&`. The entity decoder is
modelled from the spec (the `he` library is not part of this repository). -/
theorem claim8_title_clean :
    (∀ (c : Str) (m : Bool) (e : TimestampEntry),
      e ∈ (phaseDescription c m).timestamps →
      ∃ raw : Str,
        e.title = decodeHtmlCharCodes (trimStr (removeNl (stripTags raw))) ∧
        TagFree (trimStr (removeNl (stripTags raw))) ∧
        (∀ ch ∈ e.title, ch ≠ '\n')) ∧
    (phaseDescription c8line false).timestamps =
      [⟨['A', ' ', '&', ' ', 'B'], JsNum.fin 5, ['0', ':', '0', '5']⟩] := by
  constructor
  · intro c m e he
    have he2 : e ∈ (splitOnC '\n' c).filterMap (entryOf m) := by
      rw [phaseDescription_eq] at he
      exact he
    obtain ⟨l, hl, hent⟩ := List.mem_filterMap.mp he2
    unfold entryOf at hent
    cases hts : tsMatchOf m l with
    | none => rw [hts] at hent; simp at hent
    | some g =>
      rw [hts] at hent
      simp at hent
      obtain ⟨g1, g2, g3⟩ := g
      have hdot := (tsMatchOf_props hts).2
      have hnl : ∀ ch ∈ stripTags g3, ch ≠ '\n' := by
        intro ch hch
        exact dotM_ne_nl (hdot ch ((stripTags_sublist g3).subset hch))
      refine ⟨g3, ?_, ?_, ?_⟩
      · rw [← hent]
        rfl
      · rw [removeNl_eq_of hnl]
        exact tagFree_within (trimStr_decomp (stripTags g3)) (stripTags_tagFree g3)
      · intro ch hch
        rw [← hent] at hch
        refine decode_no_nl ?_ ch hch
        intro x hx
        have hx2 := mem_trimStr hx
        unfold removeNl at hx2
        have hx3 : x ∈ stripTags g3 := List.mem_of_mem_filter hx2
        exact dotM_ne_nl (hdot x ((stripTags_sublist g3).subset hx3))
  · rw [c8_eval]

/-- Witness for claim C8 at a concrete line containing `&amp;`. -/
theorem claim8_witness :
    (⟨['A', ' ', '&', ' ', 'B'], JsNum.fin 5, ['0', ':', '0', '5']⟩ :
        TimestampEntry) ∈ (phaseDescription c8line false).timestamps ∧
    ∃ raw : Str,
      (⟨['A', ' ', '&', ' ', 'B'], JsNum.fin 5, ['0', ':', '0', '5']⟩ :
          TimestampEntry).title =
        decodeHtmlCharCodes (trimStr (removeNl (stripTags raw))) ∧
      TagFree (trimStr (removeNl (stripTags raw))) ∧
      (∀ ch ∈ (⟨['A', ' ', '&', ' ', 'B'], JsNum.fin 5, ['0', ':', '0', '5']⟩ :
          TimestampEntry).title, ch ≠ '\n') :=
  ⟨by rw [c8_eval]; exact List.mem_cons_self _ _,
    claim8_title_clean.1 c8line false _
      (by rw [c8_eval]; exact List.mem_cons_self _ _)⟩

/-- Claim C9: `phaseDescription` is deterministic and pure — two runs on
equal (content, format-flag) pairs return equal results.  In the embedding
it is a total function of exactly these two arguments, reading no external
state. -/
theorem claim9_pure (c1 c2 : Str) (m1 m2 : Bool) (h1 : c1 = c2)
    (h2 : m1 = m2) : phaseDescription c1 m1 = phaseDescription c2 m2 := by
  rw [h1, h2]

/-- Witness for claim C9 at a concrete input. -/
theorem claim9_witness :
    helloStr = helloStr ∧ (false : Bool) = false ∧
    phaseDescription helloStr false = phaseDescription helloStr false :=
  ⟨rfl, rfl, claim9_pure helloStr helloStr false false rfl rfl⟩

set_option exponentiation.threshold 1100 in
set_option maxRecDepth 10000 in
/-- Evaluation of `phaseDescription` on the 310-digit jump-time line: the
captured digit run is worth 10^309, beyond the double range, so the entry
time is positive Infinity. -/
lemma c10_eval : phaseDescription c10cex false =
    ⟨[], [⟨['T'], JsNum.posInf, ['0', ':', '0', '5']⟩]⟩ := by
  have hts : tsMatchOf false c10cex =
      some (bigDigits, ['0', ':', '0', '5'], ['T']) := by decide
  unfold phaseDescription
  rw [show splitOnC '\n' c10cex = [c10cex] from by decide]
  simp only [phaseLoop]
  rw [processLine_ts hts]
  have ht : decodeHtmlCharCodes (trimStr (removeNl (stripTags ['T']))) = ['T'] := by
    rw [show stripTags ['T'] = ['T'] from by simp [stripTags]]
    rw [show trimStr (removeNl ['T']) = ['T'] from by decide]
    simp [decodeHtmlCharCodes]
  have hme : mkEntry bigDigits ['0', ':', '0', '5'] ['T'] =
      (⟨['T'], JsNum.posInf, ['0', ':', '0', '5']⟩ : TimestampEntry) := by
    unfold mkEntry
    rw [ht]
    rw [show convertToSeconds bigDigits = JsNum.posInf from by decide]
  rw [hme]
  rfl

/-- Counterexample to claim C10: on a timestamp line whose data-jump-time
capture is a run of 310 digits (value 10^309), `phaseDescription` produces
an entry whose time is positive Infinity — `parseInt` returns the nearest
double, and a digit run valued at or above 2^1024 overflows to Infinity —
so the produced time is reachable and not a finite integer. -/
theorem claim10_cex :
    (⟨['T'], JsNum.posInf, ['0', ':', '0', '5']⟩ : TimestampEntry) ∈
      (phaseDescription c10cex false).timestamps ∧
    ∀ n : Int, (⟨['T'], JsNum.posInf, ['0', ':', '0', '5']⟩ :
        TimestampEntry).time ≠ JsNum.fin n := by
  constructor
  · rw [c10_eval]
    exact List.mem_cons_self _ _
  · intro n h
    exact JsNum.noConfusion h

/-- Claim C10 (amended): every timestamp entry's time is never NaN — both
regexes capture the time field as a non-empty digit run, so the NaN path
of `parseInt` is unreachable — but the time need not be finite: it is
either a non-negative integer double (the rounded value of the digit run)
or positive Infinity, the latter reached when the digit run's value
rounds to 2^1024 or above. -/
theorem claim10_time_amended (c : Str) (m : Bool) (e : TimestampEntry)
    (he : e ∈ (phaseDescription c m).timestamps) :
    e.time ≠ JsNum.nan ∧
      ((∃ n : Nat, e.time = JsNum.fin ((n : Nat) : Int)) ∨
        e.time = JsNum.posInf) := by
  have he2 : e ∈ (splitOnC '\n' c).filterMap (entryOf m) := by
    rw [phaseDescription_eq] at he
    exact he
  obtain ⟨l, hl, hent⟩ := List.mem_filterMap.mp he2
  unfold entryOf at hent
  cases hts : tsMatchOf m l with
  | none => rw [hts] at hent; simp at hent
  | some g =>
    rw [hts] at hent
    simp at hent
    have hdig := (tsMatchOf_props hts).1
    have hc : e.time = roundToDouble ((digitsToNat g.1 : Nat) : Int) := by
      rw [← hent]
      exact convertToSeconds_digits hdig.1 hdig.2
    rw [hc]
    rcases roundToDouble_nat (digitsToNat g.1) with ⟨m2, hm⟩ | hp
    · rw [hm]
      exact ⟨fun h => JsNum.noConfusion h, Or.inl ⟨m2, rfl⟩⟩
    · rw [hp]
      exact ⟨fun h => JsNum.noConfusion h, Or.inr rfl⟩

/-- Witness for the amended claim C10 at a concrete timestamp line. -/
theorem claim10_witness :
    (⟨['I'], JsNum.fin 5, ['0', ':', '0', '5']⟩ : TimestampEntry) ∈
      (phaseDescription c6cex false).timestamps ∧
    ((⟨['I'], JsNum.fin 5, ['0', ':', '0', '5']⟩ : TimestampEntry).time ≠
        JsNum.nan ∧
      ((∃ n : Nat, (⟨['I'], JsNum.fin 5, ['0', ':', '0', '5']⟩ :
          TimestampEntry).time = JsNum.fin ((n : Nat) : Int)) ∨
        (⟨['I'], JsNum.fin 5, ['0', ':', '0', '5']⟩ :
          TimestampEntry).time = JsNum.posInf)) :=
  ⟨by rw [c6_eval]; exact List.mem_cons_self _ _,
    claim10_time_amended c6cex false _
      (by rw [c6_eval]; exact List.mem_cons_self _ _)⟩
